import Mathlib

/-!
Shallow embedding of the replicated file store implemented in `src/src/DFS.cpp`
(classes `Node` and `DistributedFS`), together with proofs checking the
natural-language specification against it.

Modelling conventions:
* a node's on-disk directory is an association list from blob name to blob
  contents; `fs::copy` into a directory is an overwriting insert, `fs::remove`
  is a delete that silently succeeds when the blob is absent;
* the persisted `metadata.txt` is modelled as the list of characters of the
  file (`none` when the file does not exist);
* `std::map<string, vector<int>>` is modelled as an association list with the
  map operations `mapGet` / `mapSet` / `mapErase`;
* vector indexing `nodes[id - 1]` is modelled by `getNode?`, which returns
  `none` exactly when the C++ access would be out of bounds (undefined
  behaviour); every engine operation that indexes the pool therefore returns
  an `Option`, and `none` means the run hit undefined behaviour;
* `fs::remove` can fail with an environmental I/O error in C++ (this is the
  exception caught in `deleteFile`); `deleteFile` takes the extra argument
  `failIds` listing the node ids whose remove call throws, so that the
  error path of the source can be exercised.  An empty `failIds` is a
  fault-free filesystem.
-/

/-- A storage node of the pool: identity, activity flag, and the contents of
its directory (blob name to blob contents).  Mirrors class `Node`. -/
structure Node where
  id : Int
  active : Bool
  storage : List (String × String)
deriving DecidableEq

/-- State of the `DistributedFS` class: the node pool, the in-memory metadata
map (filename to replica node ids), and the persisted metadata file
(`none` models a missing `metadata.txt`). -/
structure DistributedFS where
  nodes : List Node
  metadata : List (String × List Int)
  disk : Option (List Char)
deriving DecidableEq

/-- The replication factor constant `REPLICATION = 3` of `DistributedFS`. -/
def REPLICATION : Nat := 3

/-! ### Blob store primitives (a node directory) -/

/-- Look up a blob in a directory. -/
def blobGet : List (String × String) → String → Option String
  | [], _ => none
  | p :: rest, k => if p.1 = k then some p.2 else blobGet rest k

/-- Remove a blob from a directory (`fs::remove`: absent blob is a no-op). -/
def blobRemove : List (String × String) → String → List (String × String)
  | [], _ => []
  | p :: rest, k => if p.1 = k then blobRemove rest k else p :: blobRemove rest k

/-- Write a blob into a directory, overwriting any previous contents
(`fs::copy` with `overwrite_existing`). -/
def blobPut (s : List (String × String)) (k v : String) : List (String × String) :=
  (k, v) :: blobRemove s k

/-! ### Metadata map primitives (`std::map<string, vector<int>>`) -/

/-- Map lookup (`metadata.count` / `metadata[k]` read). -/
def mapGet : List (String × List Int) → String → Option (List Int)
  | [], _ => none
  | p :: rest, k => if p.1 = k then some p.2 else mapGet rest k

/-- Map insert-or-assign (`metadata[k] = v`). -/
def mapSet : List (String × List Int) → String → List Int → List (String × List Int)
  | [], k, v => [(k, v)]
  | p :: rest, k, v => if p.1 = k then (k, v) :: rest else p :: mapSet rest k v

/-- Map erase (`metadata.erase(k)`). -/
def mapErase : List (String × List Int) → String → List (String × List Int)
  | [], _ => []
  | p :: rest, k => if p.1 = k then mapErase rest k else p :: mapErase rest k

/-- The keys of the metadata map, in iteration order. -/
def mapKeys (m : List (String × List Int)) : List String :=
  m.map (fun p => p.1)

/-! ### Node pool indexing -/

/-- Positional access into the node vector. -/
def nthNode : List Node → Nat → Option Node
  | [], _ => none
  | n :: _, 0 => some n
  | _ :: rest, i + 1 => nthNode rest i

/-- Positional update of the node vector. -/
def setNth : List Node → Nat → Node → List Node
  | [], _, _ => []
  | _ :: rest, 0, m => m :: rest
  | n :: rest, i + 1, m => n :: setNth rest i m

/-- The C++ access `nodes[id - 1]`.  Returns `none` exactly when the access
would be out of bounds (undefined behaviour in the source). -/
def getNode? (nodes : List Node) (id : Int) : Option Node :=
  if 1 ≤ id then nthNode nodes (id - 1).toNat else none

/-- Replace the node at `nodes[id - 1]`. -/
def setNodeAt (nodes : List Node) (id : Int) (n : Node) : List Node :=
  setNth nodes (id - 1).toNat n

/-- `nodes[id - 1].fail()` / `.recover()`: flip the activity flag in place. -/
def setNodeActive (nodes : List Node) (id : Int) (b : Bool) : List Node :=
  match getNode? nodes id with
  | some n => setNodeAt nodes id { n with active := b }
  | none => nodes

/-- Count of currently active nodes among the listed ids
(the `activeCount` / `activeReplicas` loops); `none` on out-of-bounds. -/
def countActive? (nodes : List Node) : List Int → Option Nat
  | [] => some 0
  | id :: rest => do
    let n ← getNode? nodes id
    let c ← countActive? nodes rest
    pure (if n.active then c + 1 else c)

/-- First listed node that is currently active (the `sourceNodeId` search in
`reReplicateFile`; inner `none` models `sourceNodeId == -1`). -/
def findSource? (nodes : List Node) : List Int → Option (Option Int)
  | [] => some none
  | id :: rest => do
    let n ← getNode? nodes id
    if n.active then pure (some id) else findSource? nodes rest

/-! ### Persisted metadata: serialization (`saveMetadata`) -/

/-- Decimal digit character. -/
def digitChar (d : Nat) : Char :=
  match d with
  | 0 => '0' | 1 => '1' | 2 => '2' | 3 => '3' | 4 => '4'
  | 5 => '5' | 6 => '6' | 7 => '7' | 8 => '8' | _ => '9'

/-- Little-endian decimal digits of `n`; the first argument is fuel
(structural recursion; exact for `n ≤ fuel`). -/
def natDigitsAux : Nat → Nat → List Char
  | _, 0 => []
  | 0, _ => []
  | fuel + 1, n => digitChar (n % 10) :: natDigitsAux fuel (n / 10)

/-- Decimal representation of a natural number. -/
def natChars (n : Nat) : List Char :=
  if n = 0 then ['0'] else (natDigitsAux n n).reverse

/-- Decimal representation of an `int` as printed by `operator<<`. -/
def intChars (i : Int) : List Char :=
  if i < 0 then '-' :: natChars i.natAbs else natChars i.toNat

/-- The characters written for one id list: `id1,id2,...,` (each id followed
by a comma), as in the `file << id << ","` loop. -/
def idListChars : List Int → List Char
  | [] => []
  | id :: rest => intChars id ++ [','] ++ idListChars rest

/-- The characters of one metadata line (without the terminating newline):
`filename:id1,id2,`. -/
def recordChars (p : String × List Int) : List Char :=
  p.1.data ++ [':'] ++ idListChars p.2

/-- Full contents written to `metadata.txt` by `saveMetadata`: one
newline-terminated line per record, in map iteration order. -/
def serializeMetadata : List (String × List Int) → List Char
  | [] => []
  | p :: rest => recordChars p ++ ['\n'] ++ serializeMetadata rest

/-- `saveMetadata()`: overwrite the persisted file with the serialized
in-memory map. -/
def saveMetadata (d : DistributedFS) : DistributedFS :=
  { d with disk := some (serializeMetadata d.metadata) }

/-! ### Persisted metadata: parsing (`loadMetadata`) -/

/-- Split a character list at every occurrence of the delimiter. -/
def splitOnChar (delim : Char) : List Char → List (List Char)
  | [] => [[]]
  | c :: rest =>
    if c = delim then [] :: splitOnChar delim rest
    else
      match splitOnChar delim rest with
      | [] => [[c]]
      | t :: ts => (c :: t) :: ts

/-- Segments produced by a `getline` loop with the given delimiter: the
trailing segment is dropped when empty (`getline` fails at end of input). -/
def getlineSegments (delim : Char) (cs : List Char) : List (List Char) :=
  let parts := splitOnChar delim cs
  match parts.getLast? with
  | some [] => parts.dropLast
  | _ => parts

/-- Leading decimal digits of a token, `none` when there are none
(`std::stoi` throws). -/
def parseDigits (cs : List Char) : Option Nat :=
  let ds := cs.takeWhile (fun c => c.isDigit)
  if ds.isEmpty then none
  else some (ds.foldl (fun a c => a * 10 + (c.toNat - 48)) 0)

/-- `std::stoi` on a token: skip leading whitespace, optional sign, parse the
leading digit run, ignore the rest; `none` models the thrown exception. -/
def stoiChars (cs : List Char) : Option Int :=
  match cs.dropWhile (fun c => c.isWhitespace) with
  | [] => none
  | c :: rest =>
    if c = '-' then (parseDigits rest).map (fun n => -(n : Int))
    else if c = '+' then (parseDigits rest).map (fun n => (n : Int))
    else (parseDigits (c :: rest)).map (fun n => (n : Int))

/-- `line.find(':')` split: the part before the first colon and the part
after it; `none` when the line has no colon. -/
def splitAtColon (cs : List Char) : Option (List Char × List Char) :=
  if cs.any (fun c => c = ':') then
    some (cs.takeWhile (fun c => ¬(c = ':')), (cs.dropWhile (fun c => ¬(c = ':'))).drop 1)
  else none

/-- Parse the comma-separated tokens of one line into node ids, skipping
empty tokens; `none` when some non-empty token makes `stoi` throw. -/
def parseNodeList : List (List Char) → Option (List Int)
  | [] => some []
  | t :: rest =>
    if t.isEmpty then parseNodeList rest
    else
      match stoiChars t with
      | none => none
      | some v => (parseNodeList rest).map (fun vs => v :: vs)

/-- The `while (getline(file, line))` loop of `loadMetadata`, threading the
in-memory map.  A `stoi` exception aborts the whole load (the `catch` is
outside the loop), keeping the records accumulated so far. -/
def loadMetadataLines (m : List (String × List Int)) : List (List Char) → List (String × List Int)
  | [] => m
  | line :: rest =>
    if line.isEmpty then loadMetadataLines m rest
    else
      match splitAtColon line with
      | none => loadMetadataLines m rest
      | some (fname, nodeStr) =>
        match parseNodeList (getlineSegments ',' nodeStr) with
        | none => m
        | some ids =>
          if ids.isEmpty then loadMetadataLines m rest
          else loadMetadataLines (mapSet m (String.mk fname) ids) rest

/-- `loadMetadata()` starting from an empty in-memory map: missing backing
file yields the empty map, otherwise the file is split into lines and
parsed. -/
def loadMetadata (file : Option (List Char)) : List (String × List Int) :=
  match file with
  | none => []
  | some cs => loadMetadataLines [] (getlineSegments '\n' cs)

/-! ### Engine operations -/

/-- Outcome of `upload` (the three printed messages). -/
inductive UploadOutcome where
  | sourceNotFound
  | insufficientNodes
  | ok
deriving DecidableEq

/-- The replication loop of `upload`: walk the pool in order, copy the source
blob onto every active node, stop after the third copy.  Returns the updated
pool, the accumulated `usedNodes`, and the final `replicated` counter. -/
def uploadLoop (filename content : String) : List Node → Nat → List Int → List Node × List Int × Nat
  | [], replicated, used => ([], used, replicated)
  | n :: rest, replicated, used =>
    let step :=
      if n.active then
        ({ n with storage := blobPut n.storage filename content }, used ++ [n.id], replicated + 1)
      else (n, used, replicated)
    if step.2.2 = REPLICATION then (step.1 :: rest, step.2.1, step.2.2)
    else
      let tail := uploadLoop filename content rest step.2.2 step.2.1
      (step.1 :: tail.1, tail.2.1, tail.2.2)

/-- `upload(filename)`.  `source` is the contents of the blob named
`filename` outside the pool (`none` when `fs::exists` fails).  On
insufficient active nodes the copies already made are kept (the source
returns without any rollback) and the metadata is untouched. -/
def upload (d : DistributedFS) (filename : String) (source : Option String) :
    DistributedFS × UploadOutcome :=
  match source with
  | none => (d, UploadOutcome.sourceNotFound)
  | some content =>
    let r := uploadLoop filename content d.nodes 0 []
    if r.2.2 < REPLICATION then ({ d with nodes := r.1 }, UploadOutcome.insufficientNodes)
    else
      let d1 := { d with nodes := r.1, metadata := mapSet d.metadata filename r.2.1 }
      (saveMetadata d1, UploadOutcome.ok)

/-- Outcome of `download`. -/
inductive DownloadOutcome where
  | fileNotFound
  | ok (nodeId : Int) (content : String)
  | ioError
  | allUnavailable
deriving DecidableEq

/-- The replica scan of `download`: take the first listed node that is
active; `fs::copy` from it throws when it does not hold the blob, which the
source catches and turns into an error return (`ioError`) without trying
later replicas. -/
def downloadLoop (nodes : List Node) (filename : String) : List Int → Option DownloadOutcome
  | [] => some DownloadOutcome.allUnavailable
  | id :: rest => do
    let n ← getNode? nodes id
    if n.active then
      match blobGet n.storage filename with
      | some c => pure (DownloadOutcome.ok id c)
      | none => pure DownloadOutcome.ioError
    else downloadLoop nodes filename rest

/-- `download(filename)`. -/
def download (d : DistributedFS) (filename : String) : Option DownloadOutcome :=
  match mapGet d.metadata filename with
  | none => some DownloadOutcome.fileNotFound
  | some ids => downloadLoop d.nodes filename ids

/-- Outcome of `deleteFile`. -/
inductive DeleteOutcome where
  | fileNotFound
  | ioError
  | ok
deriving DecidableEq

/-- The deletion loop of `deleteFile`: remove the blob from every listed node
(no activity check in the source).  `failIds` are the nodes whose
`fs::remove` throws; a throw aborts the loop with the removals made so far
(the boolean result is `false` when the loop threw). -/
def deleteLoop (filename : String) (failIds : List Int) (nodes : List Node) :
    List Int → Option (List Node × Bool)
  | [] => some (nodes, true)
  | id :: rest => do
    let n ← getNode? nodes id
    if id ∈ failIds then pure (nodes, false)
    else
      deleteLoop filename failIds
        (setNodeAt nodes id { n with storage := blobRemove n.storage filename }) rest

/-- `deleteFile(filename)`.  A thrown `fs::remove` is caught and the function
returns early: the record is NOT erased and the metadata is NOT saved. -/
def deleteFile (d : DistributedFS) (filename : String) (failIds : List Int) :
    Option (DistributedFS × DeleteOutcome) :=
  match mapGet d.metadata filename with
  | none => some (d, DeleteOutcome.fileNotFound)
  | some ids => do
    let r ← deleteLoop filename failIds d.nodes ids
    if r.2 then
      let d1 := { d with nodes := r.1, metadata := mapErase d.metadata filename }
      pure (saveMetadata d1, DeleteOutcome.ok)
    else pure ({ d with nodes := r.1 }, DeleteOutcome.ioError)

/-- The first loop of `reReplicateFile`: walk the listed ids in record order
and restore the blob onto listed inactive nodes while the `activeReplicas`
counter is still below `REPLICATION`.  A failed copy (source node does not
hold the blob) throws: the loop stops and the boolean result is `false`. -/
def restoreLoop (filename : String) (srcId : Int) (nodes : List Node) (cnt : Nat) :
    List Int → Option (List Node × Nat × Bool)
  | [] => some (nodes, cnt, true)
  | id :: rest => do
    let n ← getNode? nodes id
    if n.active = false ∧ cnt < REPLICATION then do
      let src ← getNode? nodes srcId
      match blobGet src.storage filename with
      | none => pure (nodes, cnt, false)
      | some c =>
        restoreLoop filename srcId
          (setNodeAt nodes id { n with storage := blobPut n.storage filename c }) (cnt + 1) rest
    else restoreLoop filename srcId nodes cnt rest

/-- The second loop of `reReplicateFile`: walk the whole pool in order and
copy the blob onto active nodes not yet listed, appending each new id to the
record, breaking once the counter reaches `REPLICATION`.  `processed` is the
prefix of the pool already walked. -/
def growthLoop (filename : String) (srcId : Int) :
    List Node → List Node → List Int → Nat → Option (List Node × List Int × Nat × Bool)
  | processed, [], cur, cnt => some (processed, cur, cnt, true)
  | processed, n :: rest, cur, cnt =>
    if n.active = true ∧ n.id ∉ cur then
      match (getNode? (processed ++ n :: rest) srcId).bind (fun src => blobGet src.storage filename) with
      | none => some (processed ++ n :: rest, cur, cnt, false)
      | some c =>
        let n1 := { n with storage := blobPut n.storage filename c }
        if REPLICATION ≤ cnt + 1 then some (processed ++ n1 :: rest, cur ++ [n.id], cnt + 1, true)
        else growthLoop filename srcId (processed ++ [n1]) rest (cur ++ [n.id]) (cnt + 1)
    else growthLoop filename srcId (processed ++ [n]) rest cur cnt

/-- `reReplicateFile(filename)`.  A thrown copy is caught at function level:
the in-memory record keeps the ids already pushed, but `saveMetadata` is
skipped. -/
def reReplicateFile (d : DistributedFS) (filename : String) : Option DistributedFS :=
  match mapGet d.metadata filename with
  | none => some d
  | some currentNodes => do
    let activeReplicas ← countActive? d.nodes currentNodes
    if REPLICATION ≤ activeReplicas then pure d
    else do
      let srcOpt ← findSource? d.nodes currentNodes
      match srcOpt with
      | none => pure d
      | some srcId => do
        let r ← restoreLoop filename srcId d.nodes activeReplicas currentNodes
        if r.2.2 then
          if r.2.1 < REPLICATION then do
            let g ← growthLoop filename srcId [] r.1 currentNodes r.2.1
            let d1 := { d with nodes := g.1, metadata := mapSet d.metadata filename g.2.1 }
            if g.2.2.2 then pure (saveMetadata d1) else pure d1
          else pure (saveMetadata { d with nodes := r.1 })
        else pure { d with nodes := r.1 }

/-- The per-record body of `checkReplicaHealth`: count active replicas, and
when the count is strictly below the warning threshold `2`, warn (the
boolean result) and invoke `reReplicateFile`. -/
def checkOne (d : DistributedFS) (f : String) : Option (DistributedFS × Bool) :=
  match mapGet d.metadata f with
  | none => some (d, false)
  | some nodeList => do
    let activeCount ← countActive? d.nodes nodeList
    if activeCount < 2 then do
      let d1 ← reReplicateFile d f
      pure (d1, true)
    else pure (d, false)

/-- Iteration of `checkReplicaHealth` over the metadata entries, collecting
the filenames that received a degraded-redundancy warning. -/
def healthLoop : DistributedFS → List String → List String → Option (DistributedFS × List String)
  | d, warned, [] => some (d, warned)
  | d, warned, f :: rest => do
    let r ← checkOne d f
    healthLoop r.1 (if r.2 then warned ++ [f] else warned) rest

/-- `checkReplicaHealth()`: scan every file record, warn and repair those
with fewer than `2` active replicas. -/
def checkReplicaHealth (d : DistributedFS) : Option (DistributedFS × List String) :=
  healthLoop d [] (mapKeys d.metadata)

/-- Outcome of `failNode` / `recoverNode`. -/
inductive NodeOpOutcome where
  | invalidNodeId
  | ok
deriving DecidableEq

/-- `failNode(id)`: validate the id, clear the activity flag, then run a full
health check synchronously. -/
def failNode (d : DistributedFS) (id : Int) : Option (DistributedFS × NodeOpOutcome) :=
  if id < 1 ∨ (d.nodes.length : Int) < id then some (d, NodeOpOutcome.invalidNodeId)
  else do
    let d1 := { d with nodes := setNodeActive d.nodes id false }
    let r ← checkReplicaHealth d1
    pure (r.1, NodeOpOutcome.ok)

/-- `recoverNode(id)`: validate the id, set the activity flag, then run a
full health check synchronously. -/
def recoverNode (d : DistributedFS) (id : Int) : Option (DistributedFS × NodeOpOutcome) :=
  if id < 1 ∨ (d.nodes.length : Int) < id then some (d, NodeOpOutcome.invalidNodeId)
  else do
    let d1 := { d with nodes := setNodeActive d.nodes id true }
    let r ← checkReplicaHealth d1
    pure (r.1, NodeOpOutcome.ok)

/-! ### Derived notions used to state the claims -/

/-- Activity of the node with the given id (`false` when out of bounds). -/
def activeAt (nodes : List Node) (id : Int) : Bool :=
  match getNode? nodes id with
  | some n => n.active
  | none => false

/-- Directory contents of the node with the given id. -/
def storageAt (nodes : List Node) (id : Int) : List (String × String) :=
  match getNode? nodes id with
  | some n => n.storage
  | none => []

/-- Total count of currently active nodes among the listed ids. -/
def countActiveIds (nodes : List Node) (ids : List Int) : Nat :=
  (ids.filter (fun id => activeAt nodes id)).length

/-- Listed ids whose node is currently inactive, in record order. -/
def inactiveListed (nodes : List Node) (ids : List Int) : List Int :=
  ids.filter (fun id => ¬(activeAt nodes id = true))

/-- Ids of active pool nodes not yet listed, in pool (ascending id) order. -/
def activeUnlisted (nodes : List Node) (ids : List Int) : List Int :=
  (nodes.filter (fun n => n.active = true ∧ n.id ∉ ids)).map (fun n => n.id)

/-- The restore targets of a repair: listed inactive nodes, up to the
replica deficit. -/
def restoreTargets (nodes : List Node) (ids : List Int) : List Int :=
  (inactiveListed nodes ids).take (REPLICATION - countActiveIds nodes ids)

/-- The growth targets of a repair: active unlisted nodes covering whatever
deficit the restore phase left. -/
def growthTargets (nodes : List Node) (ids : List Int) : List Int :=
  (activeUnlisted nodes ids).take
    (REPLICATION - countActiveIds nodes ids - (restoreTargets nodes ids).length)

/-- Write the blob onto the node with the given id. -/
def putBlobAt (nodes : List Node) (id : Int) (filename content : String) : List Node :=
  match getNode? nodes id with
  | some n => setNodeAt nodes id { n with storage := blobPut n.storage filename content }
  | none => nodes

/-- Write the blob onto every node in the target list, in order. -/
def putBlobAll (nodes : List Node) (targets : List Int) (filename content : String) : List Node :=
  targets.foldl (fun ns id => putBlobAt ns id filename content) nodes

/-- Remove the blob from the node with the given id (`fs::remove` on that
node's directory). -/
def removeBlobAt (nodes : List Node) (id : Int) (filename : String) : List Node :=
  match getNode? nodes id with
  | some n => setNodeAt nodes id { n with storage := blobRemove n.storage filename }
  | none => nodes

/-- Remove the blob from every node in the target list, in order. -/
def removeBlobAll (nodes : List Node) (targets : List Int) (filename : String) : List Node :=
  targets.foldl (fun ns id => removeBlobAt ns id filename) nodes

/-- A filename that survives the persisted format: no colon (the key/value
separator) and no newline (the record separator) among its characters. -/
abbrev goodKey (s : String) : Prop :=
  ∀ c ∈ s.data, ¬(c = ':') ∧ ¬(c = '
')

/-- The ids of the first `REPLICATION` active nodes in pool order (the
initial placement computed by the upload loop). -/
def firstActiveIds (nodes : List Node) : List Int :=
  ((nodes.filter (fun n => n.active = true)).take REPLICATION).map (fun n => n.id)

/-- Well-formedness of the node pool as built by the constructor: the node
stored at position `i` carries id `i + 1` (ids are dense in `1..N`). -/
def nodesWFAux : List Node → Int → Bool
  | [], _ => true
  | n :: rest, k => n.id = k && nodesWFAux rest (k + 1)

/-- The pool invariant established by `DistributedFS(totalNodes)`. -/
abbrev NodesWF (nodes : List Node) : Prop :=
  nodesWFAux nodes 1 = true

/-- All listed ids refer to existing pool positions (`1..N`). -/
abbrev IdsInRange (n : Nat) (ids : List Int) : Prop :=
  ∀ i ∈ ids, 1 ≤ i ∧ i ≤ (n : Int)

/-- The metadata invariant of the spec: every record is duplicate-free and
only references existing nodes. -/
abbrev Invariant (d : DistributedFS) : Prop :=
  ∀ p ∈ d.metadata, p.2.Nodup ∧ IdsInRange d.nodes.length p.2

/-- Ids and activity flags of the pool (everything the engine's control flow
reads; repairs and deletes change storages only). -/
def skeletonOf (nodes : List Node) : List (Int × Bool) :=
  nodes.map (fun n => (n.id, n.active))

/-! ## Basic lemmas about the indexing primitives -/

theorem length_setNth (l : List Node) (i : Nat) (n : Node) :
    (setNth l i n).length = l.length := by
  induction l generalizing i with
  | nil => rfl
  | cons x rest ih =>
    cases i with
    | zero => rfl
    | succ j => simpa [setNth] using ih j

theorem nthNode_none_iff (l : List Node) (i : Nat) :
    nthNode l i = none ↔ l.length ≤ i := by
  induction l generalizing i with
  | nil => simp [nthNode]
  | cons x rest ih =>
    cases i with
    | zero => simp [nthNode]
    | succ j => simpa [nthNode, Nat.succ_le_succ_iff] using ih j

theorem nthNode_isSome_of_lt {l : List Node} {i : Nat} (h : i < l.length) :
    ∃ n, nthNode l i = some n := by
  cases hn : nthNode l i with
  | none => exact absurd ((nthNode_none_iff l i).mp hn) (by omega)
  | some n => exact ⟨n, rfl⟩

theorem lt_of_nthNode_some {l : List Node} {i : Nat} {n : Node} (h : nthNode l i = some n) :
    i < l.length := by
  by_contra hlt
  rw [(nthNode_none_iff l i).mpr (by omega)] at h
  cases h

theorem nthNode_setNth_self {l : List Node} {i : Nat} (h : i < l.length) (n : Node) :
    nthNode (setNth l i n) i = some n := by
  induction l generalizing i with
  | nil => simp at h
  | cons x rest ih =>
    cases i with
    | zero => rfl
    | succ j => simpa [setNth, nthNode] using ih (by simpa using h)

theorem nthNode_setNth_ne (l : List Node) {i j : Nat} (hij : i ≠ j) (n : Node) :
    nthNode (setNth l i n) j = nthNode l j := by
  induction l generalizing i j with
  | nil => rfl
  | cons x rest ih =>
    cases i with
    | zero =>
      cases j with
      | zero => exact absurd rfl hij
      | succ k => rfl
    | succ i0 =>
      cases j with
      | zero => rfl
      | succ k => simpa [setNth, nthNode] using ih (by omega) 

theorem nthNode_append_length (l1 : List Node) (x : Node) (l2 : List Node) :
    nthNode (l1 ++ x :: l2) l1.length = some x := by
  induction l1 with
  | nil => rfl
  | cons y rest ih => simpa [nthNode] using ih

theorem setNth_append_length (l1 : List Node) (x : Node) (l2 : List Node) (y : Node) :
    setNth (l1 ++ x :: l2) l1.length y = l1 ++ y :: l2 := by
  induction l1 with
  | nil => rfl
  | cons z rest ih => simpa [setNth] using ih

theorem getNode?_some_of_range {nodes : List Node} {id : Int}
    (h1 : 1 ≤ id) (h2 : id ≤ (nodes.length : Int)) : ∃ n, getNode? nodes id = some n := by
  have hlt : (id - 1).toNat < nodes.length := by omega
  obtain ⟨n, hn⟩ := nthNode_isSome_of_lt hlt
  exact ⟨n, by rw [getNode?, if_pos h1]; exact hn⟩

theorem getNode?_eq_nthNode {nodes : List Node} {id : Int} (h1 : 1 ≤ id) :
    getNode? nodes id = nthNode nodes (id - 1).toNat := by
  simp [getNode?, h1]

theorem range_of_getNode?_some {nodes : List Node} {id : Int} {n : Node}
    (h : getNode? nodes id = some n) : 1 ≤ id ∧ id ≤ (nodes.length : Int) := by
  by_cases h1 : 1 ≤ id
  · rw [getNode?_eq_nthNode h1] at h
    have := lt_of_nthNode_some h
    omega
  · simp [getNode?, h1] at h

theorem toNat_pred_ne {id1 id2 : Int} (h1 : 1 ≤ id1) (h2 : 1 ≤ id2) (hne : id1 ≠ id2) :
    (id1 - 1).toNat ≠ (id2 - 1).toNat := by omega

theorem getNode?_setNodeAt_ne {nodes : List Node} {id1 id2 : Int} (n : Node)
    (h1 : 1 ≤ id1) (hne : id1 ≠ id2) :
    getNode? (setNodeAt nodes id1 n) id2 = getNode? nodes id2 := by
  by_cases h2 : 1 ≤ id2
  · rw [getNode?_eq_nthNode h2, getNode?_eq_nthNode h2, setNodeAt,
      nthNode_setNth_ne _ (toNat_pred_ne h1 h2 hne) n]
  · simp [getNode?, h2]

theorem getNode?_setNodeAt_self {nodes : List Node} {id : Int} {m : Node}
    (hm : getNode? nodes id = some m) (n : Node) :
    getNode? (setNodeAt nodes id n) id = some n := by
  have h1 : 1 ≤ id := (range_of_getNode?_some hm).1
  have hlt : (id - 1).toNat < nodes.length := by
    have := lt_of_nthNode_some (getNode?_eq_nthNode h1 ▸ hm)
    omega
  rw [getNode?_eq_nthNode h1, setNodeAt, nthNode_setNth_self (by simpa [length_setNth] using hlt) n]

theorem length_setNodeAt (nodes : List Node) (id : Int) (n : Node) :
    (setNodeAt nodes id n).length = nodes.length := length_setNth nodes _ n

/-! ## Skeleton lemmas: ids and activity flags -/

/-- Id and activity flag at a pool position. -/
def skelAt (nodes : List Node) (i : Nat) : Option (Int × Bool) :=
  (nthNode nodes i).map (fun n => (n.id, n.active))

theorem skeletonOf_length {n1 n2 : List Node} (h : skeletonOf n1 = skeletonOf n2) :
    n1.length = n2.length := by
  have := congrArg List.length h
  simpa [skeletonOf] using this

theorem skelAt_of_skeletonOf {n1 n2 : List Node} (h : skeletonOf n1 = skeletonOf n2) :
    ∀ i, skelAt n1 i = skelAt n2 i := by
  intro i
  induction n1 generalizing n2 i with
  | nil =>
    cases n2 with
    | nil => rfl
    | cons y r2 => simp [skeletonOf] at h
  | cons x r1 ih =>
    cases n2 with
    | nil => simp [skeletonOf] at h
    | cons y r2 =>
      simp only [skeletonOf, List.map_cons, List.cons.injEq] at h
      cases i with
      | zero => simp [skelAt, nthNode, h.1]
      | succ j => simpa [skelAt, nthNode] using ih (by simpa [skeletonOf] using h.2) j

theorem getNode?_skel {n1 n2 : List Node} (h : skeletonOf n1 = skeletonOf n2) (id : Int) :
    (getNode? n1 id).map (fun n => (n.id, n.active)) =
      (getNode? n2 id).map (fun n => (n.id, n.active)) := by
  by_cases h1 : 1 ≤ id
  · rw [getNode?_eq_nthNode h1, getNode?_eq_nthNode h1]
    exact skelAt_of_skeletonOf h _
  · simp [getNode?, h1]

theorem map_pair_eq_cases {o1 o2 : Option Node}
    (h : o1.map (fun n => (n.id, n.active)) = o2.map (fun n => (n.id, n.active))) :
    (o1 = none ∧ o2 = none) ∨
      ∃ n m, o1 = some n ∧ o2 = some m ∧ n.id = m.id ∧ n.active = m.active := by
  cases o1 with
  | none =>
    cases o2 with
    | none => exact Or.inl ⟨rfl, rfl⟩
    | some m => simp at h
  | some n =>
    cases o2 with
    | none => simp at h
    | some m =>
      simp only [Option.map_some', Option.some.injEq, Prod.mk.injEq] at h
      exact Or.inr ⟨n, m, rfl, rfl, h.1, h.2⟩

theorem activeAt_skel {n1 n2 : List Node} (h : skeletonOf n1 = skeletonOf n2) (id : Int) :
    activeAt n1 id = activeAt n2 id := by
  rcases map_pair_eq_cases (getNode?_skel h id) with ⟨e1, e2⟩ | ⟨n, m, e1, e2, _, hact⟩
  · unfold activeAt; rw [e1, e2]
  · unfold activeAt; rw [e1, e2]; exact hact

theorem countActive?_skel {n1 n2 : List Node} (h : skeletonOf n1 = skeletonOf n2)
    (ids : List Int) : countActive? n1 ids = countActive? n2 ids := by
  induction ids with
  | nil => rfl
  | cons id rest ih =>
    unfold countActive?
    rcases map_pair_eq_cases (getNode?_skel h id) with ⟨e1, e2⟩ | ⟨n, m, e1, e2, _, hact⟩
    · rw [e1, e2]; rfl
    · rw [e1, e2]; simp [ih, hact]

theorem findSource?_skel {n1 n2 : List Node} (h : skeletonOf n1 = skeletonOf n2)
    (ids : List Int) : findSource? n1 ids = findSource? n2 ids := by
  induction ids with
  | nil => rfl
  | cons id rest ih =>
    unfold findSource?
    rcases map_pair_eq_cases (getNode?_skel h id) with ⟨e1, e2⟩ | ⟨n, m, e1, e2, _, hact⟩
    · rw [e1, e2]; rfl
    · rw [e1, e2]; simp [ih, hact]

theorem nodesWFAux_skel {n1 n2 : List Node} (h : skeletonOf n1 = skeletonOf n2) (k : Int) :
    nodesWFAux n1 k = nodesWFAux n2 k := by
  induction n1 generalizing n2 k with
  | nil =>
    cases n2 with
    | nil => rfl
    | cons y r2 => simp [skeletonOf] at h
  | cons x r1 ih =>
    cases n2 with
    | nil => simp [skeletonOf] at h
    | cons y r2 =>
      simp only [skeletonOf, List.map_cons, List.cons.injEq, Prod.mk.injEq] at h
      have htail : nodesWFAux r1 (k + 1) = nodesWFAux r2 (k + 1) :=
        ih (by simpa [skeletonOf] using h.2) (k + 1)
      simp [nodesWFAux, h.1.1, htail]

/-! ## Blob store lemmas -/

theorem blobGet_blobRemove_self (s : List (String × String)) (k : String) :
    blobGet (blobRemove s k) k = none := by
  induction s with
  | nil => rfl
  | cons p rest ih =>
    by_cases h : p.1 = k
    · simpa [blobRemove, h] using ih
    · simpa [blobRemove, blobGet, h] using ih

theorem blobGet_blobRemove_ne (s : List (String × String)) {k k' : String} (h : k ≠ k') :
    blobGet (blobRemove s k) k' = blobGet s k' := by
  have h' : ¬(k' = k) := fun e => h e.symm
  induction s with
  | nil => rfl
  | cons p rest ih =>
    by_cases hp : p.1 = k
    · have hne : ¬(p.1 = k') := by rw [hp]; exact h
      simpa [blobRemove, blobGet, hp, hne, h] using ih
    · by_cases hp' : p.1 = k'
      · simp [blobRemove, blobGet, hp, hp', h']
      · simpa [blobRemove, blobGet, hp, hp'] using ih

theorem blobGet_blobPut_self (s : List (String × String)) (k v : String) :
    blobGet (blobPut s k v) k = some v := by
  simp [blobPut, blobGet]

theorem blobGet_blobPut_ne (s : List (String × String)) {k k' : String} (v : String)
    (h : k ≠ k') : blobGet (blobPut s k v) k' = blobGet s k' := by
  simp [blobPut, blobGet, h]
  exact blobGet_blobRemove_ne s h

/-! ## Metadata map lemmas -/

theorem mapGet_mapSet_self (m : List (String × List Int)) (k : String) (v : List Int) :
    mapGet (mapSet m k v) k = some v := by
  induction m with
  | nil => simp [mapSet, mapGet]
  | cons p rest ih =>
    by_cases h : p.1 = k
    · simp [mapSet, mapGet, h]
    · simpa [mapSet, mapGet, h] using ih

theorem mapGet_mapSet_ne (m : List (String × List Int)) {k k' : String} (v : List Int)
    (h : k ≠ k') : mapGet (mapSet m k v) k' = mapGet m k' := by
  have h' : ¬(k' = k) := fun e => h e.symm
  induction m with
  | nil => simp [mapSet, mapGet, h]
  | cons p rest ih =>
    by_cases hp : p.1 = k
    · have hne : ¬(p.1 = k') := by rw [hp]; exact h
      simp [mapSet, mapGet, hp, hne, h]
    · by_cases hp' : p.1 = k'
      · simp [mapSet, mapGet, hp, hp', h']
      · simpa [mapSet, mapGet, hp, hp'] using ih

theorem mapSet_eq_self {m : List (String × List Int)} {k : String} {v : List Int}
    (h : mapGet m k = some v) : mapSet m k v = m := by
  induction m with
  | nil => simp [mapGet] at h
  | cons p rest ih =>
    by_cases hp : p.1 = k
    · rw [mapGet, if_pos hp] at h
      cases p
      simp only at hp
      simp only [Option.some.injEq] at h
      simp [mapSet, hp, h]
    · rw [mapGet, if_neg hp] at h
      simp [mapSet, hp, ih h]

theorem mem_of_mapGet_some {m : List (String × List Int)} {k : String} {v : List Int}
    (h : mapGet m k = some v) : (k, v) ∈ m := by
  induction m with
  | nil => simp [mapGet] at h
  | cons p rest ih =>
    by_cases hp : p.1 = k
    · rw [mapGet, if_pos hp] at h
      cases p
      simp only at hp
      simp only [Option.some.injEq] at h
      simp [hp, h]
    · rw [mapGet, if_neg hp] at h
      exact List.mem_cons_of_mem _ (ih h)

theorem mapGet_none_iff (m : List (String × List Int)) (k : String) :
    mapGet m k = none ↔ k ∉ mapKeys m := by
  induction m with
  | nil => simp [mapGet, mapKeys]
  | cons p rest ih =>
    by_cases hp : p.1 = k
    · simp [mapGet, mapKeys, hp]
    · rw [mapGet, if_neg hp, ih]
      simp only [mapKeys, List.map_cons, List.mem_cons, not_or]
      constructor
      · intro hk
        exact ⟨fun e => hp e.symm, hk⟩
      · intro hk
        exact hk.2

theorem mem_mapKeys_of_mapGet_some {m : List (String × List Int)} {k : String} {v : List Int}
    (h : mapGet m k = some v) : k ∈ mapKeys m := by
  by_contra hk
  rw [← mapGet_none_iff] at hk
  rw [h] at hk
  cases hk

theorem mapKeys_mapSet_of_mem {m : List (String × List Int)} {k : String} (v : List Int)
    (h : k ∈ mapKeys m) : mapKeys (mapSet m k v) = mapKeys m := by
  induction m with
  | nil => simp [mapKeys] at h
  | cons p rest ih =>
    by_cases hp : p.1 = k
    · simp [mapSet, mapKeys, hp]
    · have hr : k ∈ mapKeys rest := by
        rcases (by simpa [mapKeys] using h : k = p.1 ∨ k ∈ mapKeys rest) with h1 | h1
        · exact absurd h1.symm hp
        · exact h1
      have htail : List.map (fun q : String × List Int => q.1) (mapSet rest k v) =
          List.map (fun q : String × List Int => q.1) rest := ih hr
      simp [mapSet, mapKeys, hp, htail]

theorem mem_mapSet {m : List (String × List Int)} {k : String} {v : List Int} {p : String × List Int}
    (h : p ∈ mapSet m k v) : p ∈ m ∨ p = (k, v) := by
  induction m with
  | nil => simpa [mapSet] using h
  | cons q rest ih =>
    by_cases hq : q.1 = k
    · rcases (by simpa [mapSet, hq] using h : p = (k, v) ∨ p ∈ rest) with h1 | h1
      · exact Or.inr h1
      · exact Or.inl (List.mem_cons_of_mem _ h1)
    · rcases (by simpa [mapSet, hq] using h : p = q ∨ p ∈ mapSet rest k v) with h1 | h1
      · exact Or.inl (by simp [h1])
      · rcases ih h1 with h2 | h2
        · exact Or.inl (List.mem_cons_of_mem _ h2)
        · exact Or.inr h2

theorem mapGet_mapErase_self (m : List (String × List Int)) (k : String) :
    mapGet (mapErase m k) k = none := by
  induction m with
  | nil => rfl
  | cons p rest ih =>
    by_cases hp : p.1 = k
    · simpa [mapErase, hp] using ih
    · simpa [mapErase, mapGet, hp] using ih

theorem mapGet_mapErase_ne (m : List (String × List Int)) {k k' : String} (h : k ≠ k') :
    mapGet (mapErase m k) k' = mapGet m k' := by
  have h' : ¬(k' = k) := fun e => h e.symm
  induction m with
  | nil => rfl
  | cons p rest ih =>
    by_cases hp : p.1 = k
    · have hne : ¬(p.1 = k') := by rw [hp]; exact h
      simpa [mapErase, mapGet, hp, hne, h] using ih
    · by_cases hp' : p.1 = k'
      · simp [mapErase, mapGet, hp, hp', h']
      · simpa [mapErase, mapGet, hp, hp'] using ih

theorem mem_mapErase {m : List (String × List Int)} {k : String} {p : String × List Int}
    (h : p ∈ mapErase m k) : p ∈ m := by
  induction m with
  | nil => simp [mapErase] at h
  | cons q rest ih =>
    by_cases hq : q.1 = k
    · exact List.mem_cons_of_mem _ (ih (by simpa [mapErase, hq] using h))
    · rcases (by simpa [mapErase, hq] using h : p = q ∨ p ∈ mapErase rest k) with h1 | h1
      · simp [h1]
      · exact List.mem_cons_of_mem _ (ih h1)

/-! ## Well-formed pool lemmas -/

theorem nodesWFAux_nth {l : List Node} {k : Int} (h : nodesWFAux l k = true) :
    ∀ i n, nthNode l i = some n → n.id = k + i := by
  induction l generalizing k with
  | nil => intro i n hn; cases hn
  | cons x rest ih =>
    simp only [nodesWFAux, Bool.and_eq_true, decide_eq_true_eq] at h
    intro i n hn
    cases i with
    | zero =>
      simp only [nthNode, Option.some.injEq] at hn
      subst hn
      simpa using h.1
    | succ j =>
      have := ih h.2 j n (by simpa [nthNode] using hn)
      omega

theorem getNode?_id_of_WF {nodes : List Node} (hwf : NodesWF nodes) {id : Int} {n : Node}
    (h : getNode? nodes id = some n) : n.id = id := by
  have h1 : 1 ≤ id := (range_of_getNode?_some h).1
  rw [getNode?_eq_nthNode h1] at h
  have := nodesWFAux_nth hwf _ _ h
  omega

theorem activeAt_eq_of_getNode? {nodes : List Node} {id : Int} {n : Node}
    (h : getNode? nodes id = some n) : activeAt nodes id = n.active := by
  unfold activeAt
  rw [h]

theorem storageAt_eq_of_getNode? {nodes : List Node} {id : Int} {n : Node}
    (h : getNode? nodes id = some n) : storageAt nodes id = n.storage := by
  unfold storageAt
  rw [h]

theorem countActive?_eq_countActiveIds {nodes : List Node} {ids : List Int}
    (h : IdsInRange nodes.length ids) :
    countActive? nodes ids = some (countActiveIds nodes ids) := by
  induction ids with
  | nil => rfl
  | cons id rest ih =>
    obtain ⟨n, hn⟩ := getNode?_some_of_range (h id (by simp)).1 (h id (by simp)).2
    have hrest := ih (fun i hi => h i (List.mem_cons_of_mem _ hi))
    unfold countActive?
    rw [hn, hrest]
    have hact : activeAt nodes id = n.active := activeAt_eq_of_getNode? hn
    by_cases hb : n.active
    · simp [countActiveIds, List.filter, hact, hb]
    · simp only [Bool.not_eq_true] at hb
      simp [countActiveIds, List.filter, hact, hb]

theorem findSource?_some_of_range {nodes : List Node} {ids : List Int}
    (h : IdsInRange nodes.length ids) : ∃ o, findSource? nodes ids = some o := by
  induction ids with
  | nil => exact ⟨none, rfl⟩
  | cons id rest ih =>
    obtain ⟨n, hn⟩ := getNode?_some_of_range (h id (by simp)).1 (h id (by simp)).2
    obtain ⟨o, ho⟩ := ih (fun i hi => h i (List.mem_cons_of_mem _ hi))
    unfold findSource?
    rw [hn]
    by_cases hb : n.active
    · exact ⟨some id, by simp [hb]⟩
    · simp only [Bool.not_eq_true] at hb
      exact ⟨o, by simp [hb, ho]⟩

theorem findSource?_none_of_no_active {nodes : List Node} {ids : List Int}
    (h : IdsInRange nodes.length ids)
    (hz : ∀ i ∈ ids, activeAt nodes i = false) :
    findSource? nodes ids = some none := by
  induction ids with
  | nil => rfl
  | cons id rest ih =>
    obtain ⟨n, hn⟩ := getNode?_some_of_range (h id (by simp)).1 (h id (by simp)).2
    have hact : n.active = false := by
      have := hz id (by simp)
      rwa [activeAt_eq_of_getNode? hn] at this
    have hrest := ih (fun i hi => h i (List.mem_cons_of_mem _ hi))
      (fun i hi => hz i (List.mem_cons_of_mem _ hi))
    unfold findSource?
    rw [hn]
    simp [hact, hrest]

theorem findSource?_spec {nodes : List Node} {ids : List Int} {srcId : Int}
    (h : findSource? nodes ids = some (some srcId)) :
    srcId ∈ ids ∧ activeAt nodes srcId = true := by
  induction ids with
  | nil => simp [findSource?] at h
  | cons id rest ih =>
    unfold findSource? at h
    cases hn : getNode? nodes id with
    | none => simp [hn] at h
    | some n =>
      rw [hn] at h
      by_cases hb : n.active
      · have : id = srcId := by simpa [hb] using h
        subst this
        exact ⟨by simp, by rw [activeAt_eq_of_getNode? hn]; exact hb⟩
      · simp only [Bool.not_eq_true] at hb
        have h2 : findSource? nodes rest = some (some srcId) := by simpa [hb] using h
        have := ih h2
        exact ⟨List.mem_cons_of_mem _ this.1, this.2⟩

theorem countActiveIds_zero_iff {nodes : List Node} (ids : List Int) :
    countActiveIds nodes ids = 0 ↔ ∀ i ∈ ids, activeAt nodes i = false := by
  unfold countActiveIds
  rw [List.length_eq_zero]
  constructor
  · intro h i hi
    by_contra hc
    have hmem : i ∈ ids.filter (fun id => activeAt nodes id) :=
      List.mem_filter.mpr ⟨hi, by simpa using hc⟩
    rw [h] at hmem
    cases hmem
  · intro h
    rw [List.filter_eq_nil]
    intro i hi
    simp [h i hi]

/-! ## Storage update lemmas -/

theorem skeletonOf_setNth {l : List Node} {i : Nat} {n n' : Node}
    (h : nthNode l i = some n) (hid : n'.id = n.id) (hact : n'.active = n.active) :
    skeletonOf (setNth l i n') = skeletonOf l := by
  induction l generalizing i with
  | nil => cases h
  | cons x rest ih =>
    cases i with
    | zero =>
      simp only [nthNode, Option.some.injEq] at h
      subst h
      simp [setNth, skeletonOf, hid, hact]
    | succ j =>
      have := ih (by simpa [nthNode] using h)
      simp only [setNth, skeletonOf, List.map_cons]
      simp only [skeletonOf] at this
      rw [this]

theorem skeletonOf_putBlobAt (nodes : List Node) (id : Int) (f c : String) :
    skeletonOf (putBlobAt nodes id f c) = skeletonOf nodes := by
  unfold putBlobAt
  cases h : getNode? nodes id with
  | none => rfl
  | some n =>
    have h1 : 1 ≤ id := (range_of_getNode?_some h).1
    rw [getNode?_eq_nthNode h1] at h
    exact skeletonOf_setNth h rfl rfl

theorem skeletonOf_putBlobAll (targets : List Int) (nodes : List Node) (f c : String) :
    skeletonOf (putBlobAll nodes targets f c) = skeletonOf nodes := by
  induction targets generalizing nodes with
  | nil => rfl
  | cons t rest ih =>
    calc skeletonOf (putBlobAll (putBlobAt nodes t f c) rest f c)
        = skeletonOf (putBlobAt nodes t f c) := ih _
      _ = skeletonOf nodes := skeletonOf_putBlobAt nodes t f c

theorem length_of_skeletonOf_eq {n1 n2 : List Node} (h : skeletonOf n1 = skeletonOf n2) :
    n1.length = n2.length := skeletonOf_length h

theorem length_putBlobAll (targets : List Int) (nodes : List Node) (f c : String) :
    (putBlobAll nodes targets f c).length = nodes.length :=
  length_of_skeletonOf_eq (skeletonOf_putBlobAll targets nodes f c)

theorem getNode?_putBlobAt_ne {nodes : List Node} {id1 id2 : Int} (hne : id1 ≠ id2)
    (f c : String) : getNode? (putBlobAt nodes id1 f c) id2 = getNode? nodes id2 := by
  unfold putBlobAt
  cases h : getNode? nodes id1 with
  | none => rfl
  | some n => exact getNode?_setNodeAt_ne _ (range_of_getNode?_some h).1 hne

theorem getNode?_putBlobAt_self {nodes : List Node} {id : Int} {n : Node}
    (h : getNode? nodes id = some n) (f c : String) :
    getNode? (putBlobAt nodes id f c) id =
      some { n with storage := blobPut n.storage f c } := by
  unfold putBlobAt
  rw [h]
  exact getNode?_setNodeAt_self h _

/-! ## Activity flag update lemmas -/

theorem length_setNodeActive (nodes : List Node) (id : Int) (b : Bool) :
    (setNodeActive nodes id b).length = nodes.length := by
  unfold setNodeActive
  cases h : getNode? nodes id with
  | none => rfl
  | some n => exact length_setNth _ _ _

theorem getNode?_setNodeActive_self {nodes : List Node} {id : Int} {n : Node}
    (h : getNode? nodes id = some n) (b : Bool) :
    getNode? (setNodeActive nodes id b) id = some { n with active := b } := by
  unfold setNodeActive
  rw [h]
  exact getNode?_setNodeAt_self h _

theorem getNode?_setNodeActive_ne {nodes : List Node} {id1 id2 : Int} (hne : id1 ≠ id2)
    (b : Bool) : getNode? (setNodeActive nodes id1 b) id2 = getNode? nodes id2 := by
  unfold setNodeActive
  cases h : getNode? nodes id1 with
  | none => rfl
  | some n => exact getNode?_setNodeAt_ne _ (range_of_getNode?_some h).1 hne

theorem nodesWFAux_setNth {l : List Node} {i : Nat} {n n' : Node} {k : Int}
    (h : nthNode l i = some n) (hid : n'.id = n.id) :
    nodesWFAux (setNth l i n') k = nodesWFAux l k := by
  induction l generalizing i k with
  | nil => cases h
  | cons x rest ih =>
    cases i with
    | zero =>
      simp only [nthNode, Option.some.injEq] at h
      subst h
      simp [setNth, nodesWFAux, hid]
    | succ j =>
      simp [setNth, nodesWFAux, ih (by simpa [nthNode] using h)]

theorem nodesWF_setNodeActive {nodes : List Node} (hwf : NodesWF nodes) (id : Int) (b : Bool) :
    NodesWF (setNodeActive nodes id b) := by
  unfold setNodeActive
  cases h : getNode? nodes id with
  | none => exact hwf
  | some n =>
    have h1 : 1 ≤ id := (range_of_getNode?_some h).1
    have h2 : nthNode nodes (id - 1).toNat = some n := by
      rw [getNode?_eq_nthNode h1] at h
      exact h
    show nodesWFAux (setNodeAt nodes id { n with active := b }) 1 = true
    unfold setNodeAt
    have h3 : nodesWFAux (setNth nodes (id - 1).toNat { n with active := b }) 1 =
        nodesWFAux nodes 1 := nodesWFAux_setNth h2 rfl
    rw [h3]
    exact hwf

theorem nodesWF_of_skeletonOf_eq {n1 n2 : List Node} (h : skeletonOf n1 = skeletonOf n2)
    (hwf : NodesWF n2) : NodesWF n1 := by
  unfold NodesWF
  rw [nodesWFAux_skel h 1]
  exact hwf

/-! ## Position lemmas for well-formed pools -/

theorem mem_iff_nthNode {l : List Node} {n : Node} :
    n ∈ l ↔ ∃ i, nthNode l i = some n := by
  induction l with
  | nil => simp [nthNode]
  | cons x rest ih =>
    constructor
    · intro h
      rcases List.mem_cons.mp h with h1 | h1
      · exact ⟨0, by simp [nthNode, h1]⟩
      · obtain ⟨i, hi⟩ := ih.mp h1
        exact ⟨i + 1, by simpa [nthNode] using hi⟩
    · rintro ⟨i, hi⟩
      cases i with
      | zero =>
        simp only [nthNode, Option.some.injEq] at hi
        simp [hi]
      | succ j => exact List.mem_cons_of_mem _ (ih.mpr ⟨j, by simpa [nthNode] using hi⟩)

theorem nodesWFAux_append {l1 l2 : List Node} {k : Int}
    (h : nodesWFAux (l1 ++ l2) k = true) : nodesWFAux l2 (k + l1.length) = true := by
  induction l1 generalizing k with
  | nil => simpa using h
  | cons x rest ih =>
    simp only [List.cons_append, nodesWFAux, Bool.and_eq_true] at h
    have := ih h.2
    have harith : k + 1 + (rest.length : Int) = k + ((rest.length : Int) + 1) := by ring
    rw [harith] at this
    simpa [Int.add_comm] using this

theorem nodesWFAux_head_lt {x : Node} {l : List Node} {k : Int}
    (h : nodesWFAux (x :: l) k = true) : ∀ y ∈ l, x.id < y.id := by
  intro y hy
  obtain ⟨i, hi⟩ := mem_iff_nthNode.mp hy
  simp only [nodesWFAux, Bool.and_eq_true, decide_eq_true_eq] at h
  have := nodesWFAux_nth h.2 i y hi
  omega

theorem wf_middle_id {processed : List Node} {n : Node} {rest : List Node}
    (hwf : NodesWF (processed ++ n :: rest)) : n.id = (processed.length : Int) + 1 := by
  have : nodesWFAux (n :: rest) (1 + (processed.length : Int)) = true :=
    nodesWFAux_append hwf
  simp only [nodesWFAux, Bool.and_eq_true, decide_eq_true_eq] at this
  omega

theorem wf_rest_ne {processed : List Node} {n : Node} {rest : List Node}
    (hwf : NodesWF (processed ++ n :: rest)) : ∀ m ∈ rest, n.id ≠ m.id := by
  intro m hm
  have h2 : nodesWFAux (n :: rest) (1 + (processed.length : Int)) = true :=
    nodesWFAux_append hwf
  have := nodesWFAux_head_lt h2 m hm
  omega

/-! ## Skeleton congruence for the derived notions -/

theorem inactiveListed_skel {n1 n2 : List Node} (h : skeletonOf n1 = skeletonOf n2)
    (ids : List Int) : inactiveListed n1 ids = inactiveListed n2 ids := by
  unfold inactiveListed
  exact List.filter_congr (fun i _ => by rw [activeAt_skel h i])

theorem countActiveIds_skel {n1 n2 : List Node} (h : skeletonOf n1 = skeletonOf n2)
    (ids : List Int) : countActiveIds n1 ids = countActiveIds n2 ids := by
  unfold countActiveIds
  rw [List.filter_congr (fun i _ => by rw [activeAt_skel h i])]


theorem activeUnlisted_skel {n1 n2 : List Node} (h : skeletonOf n1 = skeletonOf n2)
    (ids : List Int) : activeUnlisted n1 ids = activeUnlisted n2 ids := by
  induction n1 generalizing n2 with
  | nil =>
    cases n2 with
    | nil => rfl
    | cons y r2 => simp [skeletonOf] at h
  | cons x r1 ih =>
    cases n2 with
    | nil => simp [skeletonOf] at h
    | cons y r2 =>
      simp only [skeletonOf, List.map_cons, List.cons.injEq, Prod.mk.injEq] at h
      have htail : activeUnlisted r1 ids = activeUnlisted r2 ids :=
        ih (by simpa [skeletonOf] using h.2)
      have hcond : decide (x.active = true ∧ x.id ∉ ids) =
          decide (y.active = true ∧ y.id ∉ ids) := by
        rw [h.1.1, h.1.2]
      unfold activeUnlisted at htail ⊢
      simp only [List.filter_cons, hcond]
      cases hq : decide (y.active = true ∧ y.id ∉ ids) with
      | false => simpa using htail
      | true =>
        simp only [if_true, List.map_cons]
        rw [htail, h.1.1]

/-! ## Step-reduction lemmas for the engine loops -/

theorem option_some_bind {α β : Type} (a : α) (f : α → Option β) :
    ((some a : Option α) >>= f) = f a := rfl

theorem putBlobAll_cons (nodes : List Node) (t : Int) (ts : List Int) (f c : String) :
    putBlobAll nodes (t :: ts) f c = putBlobAll (putBlobAt nodes t f c) ts f c := rfl

theorem putBlobAt_eq {nodes : List Node} {id : Int} {n : Node}
    (hn : getNode? nodes id = some n) (f c : String) :
    putBlobAt nodes id f c = setNodeAt nodes id { n with storage := blobPut n.storage f c } := by
  unfold putBlobAt
  rw [hn]

theorem restoreLoop_cons_restore {nodes : List Node} {id : Int} {n src : Node} {c : String}
    {cnt : Nat} {srcId : Int} {f : String}
    (hn : getNode? nodes id = some n) (hbf : n.active = false) (hcnt : cnt < REPLICATION)
    (hsrc : getNode? nodes srcId = some src) (hc : blobGet src.storage f = some c)
    (rest : List Int) :
    restoreLoop f srcId nodes cnt (id :: rest) =
      restoreLoop f srcId (setNodeAt nodes id { n with storage := blobPut n.storage f c })
        (cnt + 1) rest := by
  show ((getNode? nodes id) >>= fun n =>
    if n.active = false ∧ cnt < REPLICATION then
      (getNode? nodes srcId) >>= fun src =>
        match blobGet src.storage f with
        | none => pure (nodes, cnt, false)
        | some c =>
          restoreLoop f srcId
            (setNodeAt nodes id { n with storage := blobPut n.storage f c }) (cnt + 1) rest
    else restoreLoop f srcId nodes cnt rest) = _
  rw [hn, option_some_bind, if_pos ⟨hbf, hcnt⟩, hsrc, option_some_bind, hc]

theorem restoreLoop_cons_throw {nodes : List Node} {id : Int} {n src : Node}
    {cnt : Nat} {srcId : Int} {f : String}
    (hn : getNode? nodes id = some n) (hbf : n.active = false) (hcnt : cnt < REPLICATION)
    (hsrc : getNode? nodes srcId = some src) (hc : blobGet src.storage f = none)
    (rest : List Int) :
    restoreLoop f srcId nodes cnt (id :: rest) = some (nodes, cnt, false) := by
  show ((getNode? nodes id) >>= fun n =>
    if n.active = false ∧ cnt < REPLICATION then
      (getNode? nodes srcId) >>= fun src =>
        match blobGet src.storage f with
        | none => pure (nodes, cnt, false)
        | some c =>
          restoreLoop f srcId
            (setNodeAt nodes id { n with storage := blobPut n.storage f c }) (cnt + 1) rest
    else restoreLoop f srcId nodes cnt rest) = _
  rw [hn, option_some_bind, if_pos ⟨hbf, hcnt⟩, hsrc, option_some_bind, hc]
  rfl

theorem restoreLoop_cons_skip {nodes : List Node} {id : Int} {n : Node}
    {cnt : Nat} {srcId : Int} {f : String}
    (hn : getNode? nodes id = some n) (hguard : ¬(n.active = false ∧ cnt < REPLICATION))
    (rest : List Int) :
    restoreLoop f srcId nodes cnt (id :: rest) = restoreLoop f srcId nodes cnt rest := by
  show ((getNode? nodes id) >>= fun n =>
    if n.active = false ∧ cnt < REPLICATION then
      (getNode? nodes srcId) >>= fun src =>
        match blobGet src.storage f with
        | none => pure (nodes, cnt, false)
        | some c =>
          restoreLoop f srcId
            (setNodeAt nodes id { n with storage := blobPut n.storage f c }) (cnt + 1) rest
    else restoreLoop f srcId nodes cnt rest) = _
  rw [hn, option_some_bind, if_neg hguard]

theorem restoreLoop_spec (f : String) {srcId : Int} {src : Node} {c : String} :
    ∀ (ids : List Int) (nodes : List Node) (cnt : Nat),
    IdsInRange nodes.length ids →
    getNode? nodes srcId = some src →
    src.active = true →
    blobGet src.storage f = some c →
    restoreLoop f srcId nodes cnt ids =
      some (putBlobAll nodes ((inactiveListed nodes ids).take (REPLICATION - cnt)) f c,
            cnt + ((inactiveListed nodes ids).take (REPLICATION - cnt)).length, true) := by
  intro ids
  induction ids with
  | nil =>
    intro nodes cnt hrange hsrc hact hc
    simp [restoreLoop, inactiveListed, putBlobAll]
  | cons id rest ih =>
    intro nodes cnt hrange hsrc hact hc
    obtain ⟨n, hn⟩ := getNode?_some_of_range (hrange id (by simp)).1 (hrange id (by simp)).2
    have hrest : IdsInRange nodes.length rest := fun i hi => hrange i (List.mem_cons_of_mem _ hi)
    have hactAt : activeAt nodes id = n.active := activeAt_eq_of_getNode? hn
    by_cases hb : n.active
    · -- listed node is active: skipped by the loop and by the filter
      have hfilter : inactiveListed nodes (id :: rest) = inactiveListed nodes rest := by
        simp [inactiveListed, List.filter_cons, hactAt, hb]
      rw [restoreLoop_cons_skip hn (by simp [hb]) rest, hfilter]
      exact ih nodes cnt hrest hsrc hact hc
    · have hbf : n.active = false := by simpa using hb
      have hfilter : inactiveListed nodes (id :: rest) = id :: inactiveListed nodes rest := by
        simp [inactiveListed, List.filter_cons, hactAt, hbf]
      by_cases hcnt : cnt < REPLICATION
      · -- restore onto this node
        have hne : id ≠ srcId := by
          intro he
          rw [he, hsrc] at hn
          cases hn
          rw [hact] at hbf
          cases hbf
        have hnodes2 : putBlobAt nodes id f c =
            setNodeAt nodes id { n with storage := blobPut n.storage f c } := putBlobAt_eq hn f c
        have hskel : skeletonOf (putBlobAt nodes id f c) = skeletonOf nodes :=
          skeletonOf_putBlobAt nodes id f c
        have hlen : (putBlobAt nodes id f c).length = nodes.length :=
          length_of_skeletonOf_eq hskel
        have hsrc2 : getNode? (putBlobAt nodes id f c) srcId = some src := by
          rw [getNode?_putBlobAt_ne hne f c]
          exact hsrc
        have ihr := ih (putBlobAt nodes id f c) (cnt + 1)
          (by rw [hlen]; exact hrest) hsrc2 hact hc
        have hfl : inactiveListed (putBlobAt nodes id f c) rest = inactiveListed nodes rest :=
          inactiveListed_skel hskel rest
        rw [hfl] at ihr
        have htake : (inactiveListed nodes (id :: rest)).take (REPLICATION - cnt) =
            id :: (inactiveListed nodes rest).take (REPLICATION - (cnt + 1)) := by
          rw [hfilter]
          have he : REPLICATION - cnt = (REPLICATION - (cnt + 1)) + 1 := by
            unfold REPLICATION at hcnt ⊢
            omega
          rw [he]
          rfl
        rw [restoreLoop_cons_restore hn hbf hcnt hsrc hc rest, ← hnodes2, ihr,
          htake, putBlobAll_cons]
        simp only [Option.some.injEq, Prod.mk.injEq, List.length_cons, true_and, and_true]
        omega
      · -- counter already at REPLICATION: nothing more is restored
        have hz : REPLICATION - cnt = 0 := by omega
        have ihr := ih nodes cnt hrest hsrc hact hc
        rw [restoreLoop_cons_skip hn (by simp [hcnt]) rest, ihr, hz]
        simp

theorem growthLoop_cons_skip {n : Node} {cur : List Int}
    (hguard : ¬(n.active = true ∧ n.id ∉ cur)) (f : String) (srcId : Int)
    (processed rest : List Node) (cnt : Nat) :
    growthLoop f srcId processed (n :: rest) cur cnt =
      growthLoop f srcId (processed ++ [n]) rest cur cnt := by
  simp only [growthLoop]
  rw [if_neg hguard]

theorem growthLoop_cons_add {n : Node} {cur : List Int} {c : String}
    {f : String} {srcId : Int} {processed rest : List Node}
    (hguard : n.active = true ∧ n.id ∉ cur)
    (hsc : (getNode? (processed ++ n :: rest) srcId).bind
      (fun src => blobGet src.storage f) = some c) (cnt : Nat) :
    growthLoop f srcId processed (n :: rest) cur cnt =
      if REPLICATION ≤ cnt + 1 then
        some (processed ++ { n with storage := blobPut n.storage f c } :: rest,
          cur ++ [n.id], cnt + 1, true)
      else
        growthLoop f srcId (processed ++ [{ n with storage := blobPut n.storage f c }]) rest
          (cur ++ [n.id]) (cnt + 1) := by
  simp only [growthLoop]
  rw [if_pos hguard, hsc]

theorem growthLoop_cons_throw {n : Node} {cur : List Int}
    {f : String} {srcId : Int} {processed rest : List Node}
    (hguard : n.active = true ∧ n.id ∉ cur)
    (hsc : (getNode? (processed ++ n :: rest) srcId).bind
      (fun src => blobGet src.storage f) = none) (cnt : Nat) :
    growthLoop f srcId processed (n :: rest) cur cnt =
      some (processed ++ n :: rest, cur, cnt, false) := by
  simp only [growthLoop]
  rw [if_pos hguard, hsc]

theorem getNode?_append_middle {processed : List Node} {n : Node} {rest : List Node}
    (hwf : NodesWF (processed ++ n :: rest)) :
    getNode? (processed ++ n :: rest) n.id = some n := by
  have hid : n.id = (processed.length : Int) + 1 := wf_middle_id hwf
  have h1 : 1 ≤ n.id := by omega
  rw [getNode?_eq_nthNode h1]
  have : (n.id - 1).toNat = processed.length := by omega
  rw [this]
  exact nthNode_append_length processed n rest

theorem putBlobAt_middle {processed : List Node} {n : Node} {rest : List Node}
    (hwf : NodesWF (processed ++ n :: rest)) (f c : String) :
    putBlobAt (processed ++ n :: rest) n.id f c =
      processed ++ { n with storage := blobPut n.storage f c } :: rest := by
  rw [putBlobAt_eq (getNode?_append_middle hwf) f c]
  unfold setNodeAt
  have hid : n.id = (processed.length : Int) + 1 := wf_middle_id hwf
  have : (n.id - 1).toNat = processed.length := by omega
  rw [this]
  exact setNth_append_length processed n rest _

theorem skeletonOf_middle_storage (processed : List Node) (n : Node) (rest : List Node)
    (s : List (String × String)) :
    skeletonOf (processed ++ { n with storage := s } :: rest) =
      skeletonOf (processed ++ n :: rest) := by
  simp [skeletonOf]

theorem activeUnlisted_cons_skip {n : Node} {cur : List Int}
    (hguard : ¬(n.active = true ∧ n.id ∉ cur)) (rest : List Node) :
    activeUnlisted (n :: rest) cur = activeUnlisted rest cur := by
  unfold activeUnlisted
  rw [List.filter_cons]
  simp [hguard]

theorem activeUnlisted_cons_add {n : Node} {cur : List Int}
    (hguard : n.active = true ∧ n.id ∉ cur) (rest : List Node) :
    activeUnlisted (n :: rest) cur = n.id :: activeUnlisted rest cur := by
  unfold activeUnlisted
  rw [List.filter_cons]
  simp [hguard]

theorem activeUnlisted_concat_irrelevant {rest : List Node} {x : Int}
    (h : ∀ m ∈ rest, m.id ≠ x) (cur : List Int) :
    activeUnlisted rest (cur ++ [x]) = activeUnlisted rest cur := by
  unfold activeUnlisted
  congr 1
  apply List.filter_congr
  intro m hm
  simp [h m hm]

theorem growthLoop_spec (f : String) {srcId : Int} {src : Node} {c : String} :
    ∀ (rest processed : List Node) (cur : List Int) (cnt : Nat),
    NodesWF (processed ++ rest) →
    getNode? (processed ++ rest) srcId = some src →
    blobGet src.storage f = some c →
    srcId ∈ cur →
    cnt < REPLICATION →
    growthLoop f srcId processed rest cur cnt =
      some (putBlobAll (processed ++ rest)
              ((activeUnlisted rest cur).take (REPLICATION - cnt)) f c,
            cur ++ (activeUnlisted rest cur).take (REPLICATION - cnt),
            cnt + ((activeUnlisted rest cur).take (REPLICATION - cnt)).length, true) := by
  intro rest
  induction rest with
  | nil =>
    intro processed cur cnt hwf hsrc hc hmem hcnt
    simp [growthLoop, activeUnlisted, putBlobAll]
  | cons n rest ih =>
    intro processed cur cnt hwf hsrc hc hmem hcnt
    by_cases hguard : n.active = true ∧ n.id ∉ cur
    · -- this pool node receives a new replica
      have hsc : (getNode? (processed ++ n :: rest) srcId).bind
          (fun s => blobGet s.storage f) = some c := by
        rw [hsrc]
        exact hc
      have hnid : n.id = (processed.length : Int) + 1 := wf_middle_id hwf
      have hne_src : n.id ≠ srcId := by
        intro he
        exact hguard.2 (he ▸ hmem)
      have hput : putBlobAt (processed ++ n :: rest) n.id f c =
          processed ++ { n with storage := blobPut n.storage f c } :: rest :=
        putBlobAt_middle hwf f c
      have hAU : activeUnlisted (n :: rest) cur = n.id :: activeUnlisted rest cur :=
        activeUnlisted_cons_add hguard rest
      rw [growthLoop_cons_add hguard hsc cnt]
      by_cases hbreak : REPLICATION ≤ cnt + 1
      · -- counter reaches REPLICATION: break
        have htake1 : REPLICATION - cnt = 1 := by omega
        rw [if_pos hbreak, hAU]
        rw [htake1]
        simp only [List.take_succ_cons, List.take_zero, List.length_cons, List.length_nil]
        rw [putBlobAll_cons, hput]
        simp [putBlobAll]
      · -- keep growing
        rw [if_neg hbreak]
        have hcnt1 : cnt + 1 < REPLICATION := by omega
        have hskel : skeletonOf (processed ++ { n with storage := blobPut n.storage f c } :: rest)
            = skeletonOf (processed ++ n :: rest) :=
          skeletonOf_middle_storage processed n rest _
        have hwf1 : NodesWF ((processed ++ [{ n with storage := blobPut n.storage f c }]) ++ rest) := by
          rw [List.append_assoc, List.singleton_append]
          exact nodesWF_of_skeletonOf_eq hskel hwf
        have hsrc1 : getNode? ((processed ++ [{ n with storage := blobPut n.storage f c }]) ++ rest)
            srcId = some src := by
          rw [List.append_assoc, List.singleton_append, ← hput,
            getNode?_putBlobAt_ne hne_src f c]
          exact hsrc
        have hrest_ne : ∀ m ∈ rest, m.id ≠ n.id := by
          intro m hm
          exact fun he => (wf_rest_ne hwf m hm) he.symm
        have hAU2 : activeUnlisted rest (cur ++ [n.id]) = activeUnlisted rest cur :=
          activeUnlisted_concat_irrelevant (fun m hm => hrest_ne m hm) cur
        have ihr := ih (processed ++ [{ n with storage := blobPut n.storage f c }])
          (cur ++ [n.id]) (cnt + 1) hwf1 hsrc1 hc (by simp [hmem]) hcnt1
        rw [hAU2] at ihr
        rw [ihr, hAU]
        have he : REPLICATION - cnt = (REPLICATION - (cnt + 1)) + 1 := by omega
        rw [he]
        simp only [List.take_succ_cons, List.length_cons]
        rw [putBlobAll_cons, hput]
        simp only [List.append_assoc, List.singleton_append, Option.some.injEq,
          Prod.mk.injEq, List.length_cons, true_and, and_true]
        omega
    · -- pool node skipped (inactive or already listed)
      have hAU : activeUnlisted (n :: rest) cur = activeUnlisted rest cur :=
        activeUnlisted_cons_skip hguard rest
      have hwf1 : NodesWF ((processed ++ [n]) ++ rest) := by
        rw [List.append_assoc, List.singleton_append]
        exact hwf
      have hsrc1 : getNode? ((processed ++ [n]) ++ rest) srcId = some src := by
        rw [List.append_assoc, List.singleton_append]
        exact hsrc
      have ihr := ih (processed ++ [n]) cur cnt hwf1 hsrc1 hc hmem hcnt
      rw [growthLoop_cons_skip hguard f srcId processed rest cnt, ihr, hAU]
      simp [List.append_assoc]

theorem putBlobAll_append (nodes : List Node) (l1 l2 : List Int) (f c : String) :
    putBlobAll nodes (l1 ++ l2) f c = putBlobAll (putBlobAll nodes l1 f c) l2 f c := by
  unfold putBlobAll
  exact List.foldl_append _ _ _ _

theorem getNode?_putBlobAll_not_mem {targets : List Int} {id : Int}
    (h : ∀ t ∈ targets, t ≠ id) (nodes : List Node) (f c : String) :
    getNode? (putBlobAll nodes targets f c) id = getNode? nodes id := by
  induction targets generalizing nodes with
  | nil => rfl
  | cons t rest ih =>
    rw [putBlobAll_cons, ih (fun x hx => h x (List.mem_cons_of_mem _ hx)),
      getNode?_putBlobAt_ne (h t (by simp)) f c]

theorem mem_inactiveListed {nodes : List Node} {ids : List Int} {i : Int}
    (h : i ∈ inactiveListed nodes ids) : i ∈ ids ∧ ¬(activeAt nodes i = true) := by
  unfold inactiveListed at h
  have := List.mem_filter.mp h
  exact ⟨this.1, by simpa using this.2⟩

theorem mem_restoreTargets {nodes : List Node} {ids : List Int} {i : Int}
    (h : i ∈ restoreTargets nodes ids) : i ∈ ids ∧ ¬(activeAt nodes i = true) :=
  mem_inactiveListed (List.mem_of_mem_take h)

/-- C1 helper: full characterization of `reReplicateFile` against the spec's
`chooseRepairTargets`-based description. -/
theorem repair_spec (d : DistributedFS) (f : String) (ids : List Int)
    (hwf : NodesWF d.nodes)
    (hrec : mapGet d.metadata f = some ids)
    (hrange : IdsInRange d.nodes.length ids) :
    (REPLICATION ≤ countActiveIds d.nodes ids → reReplicateFile d f = some d) ∧
    (countActiveIds d.nodes ids = 0 → reReplicateFile d f = some d) ∧
    (∀ srcId c, countActiveIds d.nodes ids < REPLICATION →
      findSource? d.nodes ids = some (some srcId) →
      blobGet (storageAt d.nodes srcId) f = some c →
      reReplicateFile d f =
        some (saveMetadata { d with
          nodes := putBlobAll d.nodes
            (restoreTargets d.nodes ids ++ growthTargets d.nodes ids) f c,
          metadata := mapSet d.metadata f (ids ++ growthTargets d.nodes ids) })) := by
  have hcnt : countActive? d.nodes ids = some (countActiveIds d.nodes ids) :=
    countActive?_eq_countActiveIds hrange
  refine ⟨?_, ?_, ?_⟩
  · intro h
    simp only [reReplicateFile, hrec, hcnt, option_some_bind]
    rw [if_pos h]
    rfl
  · intro h
    have hall : ∀ i ∈ ids, activeAt d.nodes i = false := (countActiveIds_zero_iff ids).mp h
    have hfs : findSource? d.nodes ids = some none :=
      findSource?_none_of_no_active hrange hall
    have hnot : ¬(REPLICATION ≤ countActiveIds d.nodes ids) := by
      rw [h]
      unfold REPLICATION
      omega
    simp only [reReplicateFile, hrec, hcnt, option_some_bind]
    rw [if_neg hnot]
    simp only [hfs, option_some_bind]
    rfl
  · intro srcId c hlt hfs hblob
    obtain ⟨hmem, hactAt⟩ := findSource?_spec hfs
    obtain ⟨src, hsrc⟩ :=
      getNode?_some_of_range (hrange srcId hmem).1 (hrange srcId hmem).2
    have hsact : src.active = true := by
      rw [activeAt_eq_of_getNode? hsrc] at hactAt
      exact hactAt
    have hc : blobGet src.storage f = some c := by
      rw [storageAt_eq_of_getNode? hsrc] at hblob
      exact hblob
    have hnot : ¬(REPLICATION ≤ countActiveIds d.nodes ids) := Nat.not_le.mpr hlt
    have hres := restoreLoop_spec f ids d.nodes (countActiveIds d.nodes ids)
      hrange hsrc hsact hc
    have hRdef : (inactiveListed d.nodes ids).take
        (REPLICATION - countActiveIds d.nodes ids) = restoreTargets d.nodes ids := rfl
    rw [hRdef] at hres
    have hskelR : skeletonOf (putBlobAll d.nodes (restoreTargets d.nodes ids) f c) =
        skeletonOf d.nodes := skeletonOf_putBlobAll _ _ f c
    simp only [reReplicateFile, hrec, hcnt, option_some_bind]
    rw [if_neg hnot]
    simp only [hfs, option_some_bind, hres]
    by_cases hfull : countActiveIds d.nodes ids + (restoreTargets d.nodes ids).length <
        REPLICATION
    · -- restore did not cover the deficit: the growth loop runs
      have hsrc_notR : ∀ t ∈ restoreTargets d.nodes ids, t ≠ srcId := by
        intro t ht he
        exact (mem_restoreTargets ht).2 (he ▸ hactAt)
      have hsrc1 : getNode? (putBlobAll d.nodes (restoreTargets d.nodes ids) f c) srcId =
          some src := by
        rw [getNode?_putBlobAll_not_mem hsrc_notR d.nodes f c]
        exact hsrc
      have hwf1 : NodesWF (putBlobAll d.nodes (restoreTargets d.nodes ids) f c) :=
        nodesWF_of_skeletonOf_eq hskelR hwf
      have hgrow := growthLoop_spec f (putBlobAll d.nodes (restoreTargets d.nodes ids) f c)
        [] ids (countActiveIds d.nodes ids + (restoreTargets d.nodes ids).length)
        (by simpa using hwf1) (by simpa using hsrc1) hc hmem hfull
      have hAU : activeUnlisted (putBlobAll d.nodes (restoreTargets d.nodes ids) f c) ids =
          activeUnlisted d.nodes ids := activeUnlisted_skel hskelR ids
      have hGdef : (activeUnlisted d.nodes ids).take
          (REPLICATION - (countActiveIds d.nodes ids + (restoreTargets d.nodes ids).length)) =
          growthTargets d.nodes ids := by
        unfold growthTargets
        have : REPLICATION - (countActiveIds d.nodes ids + (restoreTargets d.nodes ids).length) =
            REPLICATION - countActiveIds d.nodes ids - (restoreTargets d.nodes ids).length := by
          omega
        rw [this]
      rw [hAU, hGdef] at hgrow
      simp only [List.nil_append] at hgrow
      rw [if_pos hfull, hgrow, option_some_bind]
      rw [← putBlobAll_append]
      rfl
    · -- restore alone reached REPLICATION: growth is skipped
      have hG0 : growthTargets d.nodes ids = [] := by
        unfold growthTargets
        have : REPLICATION - countActiveIds d.nodes ids -
            (restoreTargets d.nodes ids).length = 0 := by
          omega
        rw [this]
        exact List.take_zero _
      rw [if_neg hfull]
      rw [hG0]
      simp only [List.append_nil]
      rw [if_pos trivial, mapSet_eq_self hrec]
      rfl

/-- Claim C1: for every file record whose active-replica count is strictly
below `R = 3` and that has a listed active node (the repair source, holding
the blob), `reReplicateFile` copies the blob from the first listed active
node, first onto the listed inactive nodes (restoring, without appending,
in record order) and then onto active nodes not yet listed in ascending id
order (appending each new id), stopping once the counter reaches `R` or
candidates are exhausted; if the active-replica count is already at least
`R`, or no listed node is active, repair is a no-op. -/
theorem C1_repair_algorithm (d : DistributedFS) (f : String) (ids : List Int)
    (hwf : NodesWF d.nodes)
    (hrec : mapGet d.metadata f = some ids)
    (hrange : IdsInRange d.nodes.length ids) :
    (REPLICATION ≤ countActiveIds d.nodes ids → reReplicateFile d f = some d) ∧
    (countActiveIds d.nodes ids = 0 → reReplicateFile d f = some d) ∧
    (∀ srcId c, countActiveIds d.nodes ids < REPLICATION →
      findSource? d.nodes ids = some (some srcId) →
      blobGet (storageAt d.nodes srcId) f = some c →
      reReplicateFile d f =
        some (saveMetadata { d with
          nodes := putBlobAll d.nodes
            (restoreTargets d.nodes ids ++ growthTargets d.nodes ids) f c,
          metadata := mapSet d.metadata f (ids ++ growthTargets d.nodes ids) })) :=
  repair_spec d f ids hwf hrec hrange

/-- Concrete pool for the C1 witness: node 1 inactive and empty, node 2
active holding the blob, nodes 3 and 4 active and empty, record `[1, 2]`. -/
def dC1 : DistributedFS :=
  { nodes := [{ id := 1, active := false, storage := [] },
              { id := 2, active := true, storage := [("f", "x")] },
              { id := 3, active := true, storage := [] },
              { id := 4, active := true, storage := [] }],
    metadata := [("f", [1, 2])],
    disk := none }

/-- Witness for C1 at a concrete state: one active replica, repair restores
onto listed node 1 and then appends active node 3. -/
theorem C1_repair_algorithm_witness :
    reReplicateFile dC1 "f" =
      some (saveMetadata { dC1 with
        nodes := putBlobAll dC1.nodes
          (restoreTargets dC1.nodes [1, 2] ++ growthTargets dC1.nodes [1, 2]) "f" "x",
        metadata := mapSet dC1.metadata "f" ([1, 2] ++ growthTargets dC1.nodes [1, 2]) }) :=
  (C1_repair_algorithm dC1 "f" [1, 2] (by decide) (by decide) (by decide)).2.2
    2 "x" (by decide) (by decide) (by decide)

/-! ## C3: upload with insufficient active nodes -/

/-- Concrete pool for C3: three nodes, only node 1 active; fewer than
`R = 3` active nodes, so the upload must fail. -/
def dC3 : DistributedFS :=
  { nodes := [{ id := 1, active := true, storage := [] },
              { id := 2, active := false, storage := [] },
              { id := 3, active := false, storage := [] }],
    metadata := [],
    disk := none }

/-- Claim C3 (code bug): with fewer than `R` active nodes, `upload` fails
with `InsufficientNodes` and leaves the metadata store unchanged, BUT the
copy already made onto active node 1 during the failed attempt is retained
(the loop copies while counting, and nothing is rolled back) — contradicting
the claim's "no partial copies are retained on any node". -/
theorem C3_upload_keeps_partial_copies :
    (upload dC3 "f" (some "x")).2 = UploadOutcome.insufficientNodes ∧
    (upload dC3 "f" (some "x")).1.metadata = dC3.metadata ∧
    (upload dC3 "f" (some "x")).1.disk = dC3.disk ∧
    blobGet (storageAt dC3.nodes 1) "f" = none ∧
    blobGet (storageAt (upload dC3 "f" (some "x")).1.nodes 1) "f" = some "x" := by
  decide

/-! ## C4: download -/

theorem findSource?_cons_active {nodes : List Node} {id : Int} {n : Node}
    (hn : getNode? nodes id = some n) (hb : n.active = true) (rest : List Int) :
    findSource? nodes (id :: rest) = some (some id) := by
  simp only [findSource?]
  rw [hn, option_some_bind, if_pos hb]
  rfl

theorem findSource?_cons_inactive {nodes : List Node} {id : Int} {n : Node}
    (hn : getNode? nodes id = some n) (hb : n.active = false) (rest : List Int) :
    findSource? nodes (id :: rest) = findSource? nodes rest := by
  simp only [findSource?]
  rw [hn, option_some_bind, if_neg (by simp [hb])]

theorem downloadLoop_cons_hit {nodes : List Node} {id : Int} {n : Node} {f c : String}
    (hn : getNode? nodes id = some n) (hb : n.active = true)
    (hc : blobGet n.storage f = some c) (rest : List Int) :
    downloadLoop nodes f (id :: rest) = some (DownloadOutcome.ok id c) := by
  simp only [downloadLoop]
  rw [hn, option_some_bind, if_pos hb, hc]
  rfl

theorem downloadLoop_cons_io {nodes : List Node} {id : Int} {n : Node} {f : String}
    (hn : getNode? nodes id = some n) (hb : n.active = true)
    (hc : blobGet n.storage f = none) (rest : List Int) :
    downloadLoop nodes f (id :: rest) = some DownloadOutcome.ioError := by
  simp only [downloadLoop]
  rw [hn, option_some_bind, if_pos hb, hc]
  rfl

theorem downloadLoop_cons_inactive {nodes : List Node} {id : Int} {n : Node} {f : String}
    (hn : getNode? nodes id = some n) (hb : n.active = false) (rest : List Int) :
    downloadLoop nodes f (id :: rest) = downloadLoop nodes f rest := by
  simp only [downloadLoop]
  rw [hn, option_some_bind, if_neg (by simp [hb])]

theorem downloadLoop_ne_fileNotFound (nodes : List Node) (f : String) :
    ∀ ids, downloadLoop nodes f ids ≠ some DownloadOutcome.fileNotFound := by
  intro ids
  induction ids with
  | nil => simp [downloadLoop]
  | cons id rest ih =>
    cases hn : getNode? nodes id with
    | none =>
      intro h
      simp only [downloadLoop] at h
      rw [hn] at h
      cases h
    | some n =>
      by_cases hb : n.active
      · cases hc : blobGet n.storage f with
        | none => rw [downloadLoop_cons_io hn hb hc rest]; intro h; cases h
        | some c => rw [downloadLoop_cons_hit hn hb hc rest]; intro h; cases h
      · have hbf : n.active = false := by simpa using hb
        rw [downloadLoop_cons_inactive hn hbf rest]
        exact ih

theorem downloadLoop_vs_findSource (nodes : List Node) (f : String) :
    ∀ ids, IdsInRange nodes.length ids →
    (findSource? nodes ids = some none →
      downloadLoop nodes f ids = some DownloadOutcome.allUnavailable) ∧
    (∀ srcId, findSource? nodes ids = some (some srcId) →
      (∀ c, blobGet (storageAt nodes srcId) f = some c →
        downloadLoop nodes f ids = some (DownloadOutcome.ok srcId c)) ∧
      (blobGet (storageAt nodes srcId) f = none →
        downloadLoop nodes f ids = some DownloadOutcome.ioError)) := by
  intro ids
  induction ids with
  | nil =>
    intro _
    refine ⟨fun _ => rfl, ?_⟩
    intro srcId h
    simp [findSource?] at h
  | cons id rest ih =>
    intro hrange
    obtain ⟨n, hn⟩ :=
      getNode?_some_of_range (hrange id (by simp)).1 (hrange id (by simp)).2
    have hrest : IdsInRange nodes.length rest :=
      fun i hi => hrange i (List.mem_cons_of_mem _ hi)
    by_cases hb : n.active
    · have hfs : findSource? nodes (id :: rest) = some (some id) :=
        findSource?_cons_active hn hb rest
      constructor
      · intro h
        rw [hfs] at h
        cases h
      · intro srcId h
        rw [hfs] at h
        have hid : id = srcId := by simpa using h
        subst hid
        have hst : storageAt nodes id = n.storage := storageAt_eq_of_getNode? hn
        constructor
        · intro c hc
          rw [hst] at hc
          exact downloadLoop_cons_hit hn hb hc rest
        · intro hc
          rw [hst] at hc
          exact downloadLoop_cons_io hn hb hc rest
    · have hbf : n.active = false := by simpa using hb
      have hfs : findSource? nodes (id :: rest) = findSource? nodes rest :=
        findSource?_cons_inactive hn hbf rest
      have hdl : downloadLoop nodes f (id :: rest) = downloadLoop nodes f rest :=
        downloadLoop_cons_inactive hn hbf rest
      rw [hfs, hdl]
      exact ih hrest

/-- Claim C4 as frozen is false on the code: node 1 is active but does not
hold the blob, node 2 is active and holds it; the claim demands the content
of node 2 (`ok 2 "x"`), but the download aborts with an I/O error at node 1
(`fs::copy` throws, the catch returns) without consulting node 2. -/
def dC4 : DistributedFS :=
  { nodes := [{ id := 1, active := true, storage := [] },
              { id := 2, active := true, storage := [("f", "x")] }],
    metadata := [("f", [1, 2])],
    disk := none }

/-- Counterexample to claim C4 as stated: the first listed node that is
active AND holds the blob is node 2, yet `download` returns an I/O error,
not node 2's content. -/
theorem C4_download_counterexample :
    mapGet dC4.metadata "f" = some [1, 2] ∧
    activeAt dC4.nodes 1 = true ∧ blobGet (storageAt dC4.nodes 1) "f" = none ∧
    activeAt dC4.nodes 2 = true ∧ blobGet (storageAt dC4.nodes 2) "f" = some "x" ∧
    download dC4 "f" = some DownloadOutcome.ioError ∧
    download dC4 "f" ≠ some (DownloadOutcome.ok 2 "x") := by
  decide

/-- Claim C4 (amended): `download` fails with `FileNotFound` iff no record
exists; otherwise it scans `replicaNodes` in stored order for the FIRST
listed node that is currently active: if none exists it fails with
`AllReplicasUnavailable`; if that first active node holds the blob its
content is returned; if it does not, the download aborts with an I/O error
without consulting later replicas. -/
theorem C4_download_spec (d : DistributedFS) (f : String) :
    (download d f = some DownloadOutcome.fileNotFound ↔ mapGet d.metadata f = none) ∧
    (∀ ids, mapGet d.metadata f = some ids → IdsInRange d.nodes.length ids →
      (findSource? d.nodes ids = some none →
        download d f = some DownloadOutcome.allUnavailable) ∧
      (∀ srcId c, findSource? d.nodes ids = some (some srcId) →
        blobGet (storageAt d.nodes srcId) f = some c →
        download d f = some (DownloadOutcome.ok srcId c)) ∧
      (∀ srcId, findSource? d.nodes ids = some (some srcId) →
        blobGet (storageAt d.nodes srcId) f = none →
        download d f = some DownloadOutcome.ioError)) := by
  constructor
  · constructor
    · intro h
      cases hm : mapGet d.metadata f with
      | none => rfl
      | some ids =>
        have hdl : download d f = downloadLoop d.nodes f ids := by
          simp only [download, hm]
        rw [hdl] at h
        exact absurd h (downloadLoop_ne_fileNotFound d.nodes f ids)
    · intro h
      simp only [download, h]
  · intro ids hm hrange
    have hdl : download d f = downloadLoop d.nodes f ids := by
      simp only [download, hm]
    have hspec := downloadLoop_vs_findSource d.nodes f ids hrange
    refine ⟨fun h => by rw [hdl]; exact hspec.1 h, ?_, ?_⟩
    · intro srcId c hfs hc
      rw [hdl]
      exact (hspec.2 srcId hfs).1 c hc
    · intro srcId hfs hc
      rw [hdl]
      exact (hspec.2 srcId hfs).2 hc

/-- Concrete state for the C4 witness: node 1 inactive, node 2 active and
holding the blob. -/
def dC4w : DistributedFS :=
  { nodes := [{ id := 1, active := false, storage := [] },
              { id := 2, active := true, storage := [("f", "x")] }],
    metadata := [("f", [1, 2])],
    disk := none }

/-- Witness for the amended C4: the first active listed node is node 2 and
holds the blob, so the download returns its content. -/
theorem C4_download_spec_witness :
    download dC4w "f" = some (DownloadOutcome.ok 2 "x") :=
  ((C4_download_spec dC4w "f").2 [1, 2] (by decide) (by decide)).2.1
    2 "x" (by decide) (by decide)

/-! ## C7 and C8: deleteFile -/

theorem removeBlobAll_cons (nodes : List Node) (t : Int) (ts : List Int) (f : String) :
    removeBlobAll nodes (t :: ts) f = removeBlobAll (removeBlobAt nodes t f) ts f := rfl

theorem skeletonOf_removeBlobAt (nodes : List Node) (id : Int) (f : String) :
    skeletonOf (removeBlobAt nodes id f) = skeletonOf nodes := by
  unfold removeBlobAt
  cases h : getNode? nodes id with
  | none => rfl
  | some n =>
    have h1 : 1 ≤ id := (range_of_getNode?_some h).1
    rw [getNode?_eq_nthNode h1] at h
    exact skeletonOf_setNth h rfl rfl

theorem skeletonOf_removeBlobAll (targets : List Int) (nodes : List Node) (f : String) :
    skeletonOf (removeBlobAll nodes targets f) = skeletonOf nodes := by
  induction targets generalizing nodes with
  | nil => rfl
  | cons t rest ih =>
    calc skeletonOf (removeBlobAll (removeBlobAt nodes t f) rest f)
        = skeletonOf (removeBlobAt nodes t f) := ih _
      _ = skeletonOf nodes := skeletonOf_removeBlobAt nodes t f

theorem length_removeBlobAll (targets : List Int) (nodes : List Node) (f : String) :
    (removeBlobAll nodes targets f).length = nodes.length :=
  length_of_skeletonOf_eq (skeletonOf_removeBlobAll targets nodes f)

theorem getNode?_removeBlobAt_ne {id1 id2 : Int} (hne : id1 ≠ id2)
    (nodes : List Node) (f : String) :
    getNode? (removeBlobAt nodes id1 f) id2 = getNode? nodes id2 := by
  unfold removeBlobAt
  cases h : getNode? nodes id1 with
  | none => rfl
  | some n => exact getNode?_setNodeAt_ne _ (range_of_getNode?_some h).1 hne

theorem storageAt_removeBlobAt_self {nodes : List Node} {id : Int} {n : Node}
    (h : getNode? nodes id = some n) (f : String) :
    storageAt (removeBlobAt nodes id f) id = blobRemove n.storage f := by
  unfold removeBlobAt
  rw [h]
  unfold storageAt
  rw [getNode?_setNodeAt_self h _]

theorem blobGet_none_removeBlobAll (f : String) :
    ∀ (ids : List Int) (nodes : List Node) (i : Int),
    blobGet (storageAt nodes i) f = none →
    blobGet (storageAt (removeBlobAll nodes ids f) i) f = none := by
  intro ids
  induction ids with
  | nil => intro nodes i h; exact h
  | cons j rest ih =>
    intro nodes i h
    rw [removeBlobAll_cons]
    apply ih
    by_cases hij : j = i
    · subst hij
      cases hj : getNode? nodes j with
      | none =>
        have : removeBlobAt nodes j f = nodes := by unfold removeBlobAt; rw [hj]
        rw [this]
        exact h
      | some n =>
        rw [storageAt_removeBlobAt_self hj f]
        exact blobGet_blobRemove_self n.storage f
    · unfold storageAt
      rw [getNode?_removeBlobAt_ne hij nodes f]
      exact h

theorem blobGet_none_of_mem_removeBlobAll (f : String) :
    ∀ (ids : List Int) (nodes : List Node) (i : Int), i ∈ ids →
    IdsInRange nodes.length ids →
    blobGet (storageAt (removeBlobAll nodes ids f) i) f = none := by
  intro ids
  induction ids with
  | nil => intro nodes i h; cases h
  | cons j rest ih =>
    intro nodes i hmem hrange
    rw [removeBlobAll_cons]
    have hlen : (removeBlobAt nodes j f).length = nodes.length :=
      length_of_skeletonOf_eq (skeletonOf_removeBlobAt nodes j f)
    rcases List.mem_cons.mp hmem with he | hr
    · subst he
      apply blobGet_none_removeBlobAll
      obtain ⟨n, hn⟩ := getNode?_some_of_range (hrange i (by simp)).1 (hrange i (by simp)).2
      rw [storageAt_removeBlobAt_self hn f]
      exact blobGet_blobRemove_self n.storage f
    · exact ih _ i hr (fun x hx => by
        rw [hlen]
        exact hrange x (List.mem_cons_of_mem _ hx))

theorem deleteLoop_cons_throw {nodes : List Node} {id : Int} {n : Node}
    {failIds : List Int} {f : String}
    (hn : getNode? nodes id = some n) (hfail : id ∈ failIds) (rest : List Int) :
    deleteLoop f failIds nodes (id :: rest) = some (nodes, false) := by
  simp only [deleteLoop]
  rw [hn, option_some_bind, if_pos hfail]
  rfl

theorem deleteLoop_cons_step {nodes : List Node} {id : Int} {n : Node}
    {failIds : List Int} {f : String}
    (hn : getNode? nodes id = some n) (hfail : id ∉ failIds) (rest : List Int) :
    deleteLoop f failIds nodes (id :: rest) =
      deleteLoop f failIds
        (setNodeAt nodes id { n with storage := blobRemove n.storage f }) rest := by
  simp only [deleteLoop]
  rw [hn, option_some_bind, if_neg hfail]

theorem removeBlobAt_eq {nodes : List Node} {id : Int} {n : Node}
    (hn : getNode? nodes id = some n) (f : String) :
    removeBlobAt nodes id f =
      setNodeAt nodes id { n with storage := blobRemove n.storage f } := by
  unfold removeBlobAt
  rw [hn]

theorem deleteLoop_clean (f : String) (failIds : List Int) :
    ∀ (ids : List Int) (nodes : List Node), IdsInRange nodes.length ids →
    (∀ i ∈ ids, i ∉ failIds) →
    deleteLoop f failIds nodes ids = some (removeBlobAll nodes ids f, true) := by
  intro ids
  induction ids with
  | nil => intro nodes _ _; rfl
  | cons id rest ih =>
    intro nodes hrange hnofail
    obtain ⟨n, hn⟩ := getNode?_some_of_range (hrange id (by simp)).1 (hrange id (by simp)).2
    rw [deleteLoop_cons_step hn (hnofail id (by simp)) rest, removeBlobAll_cons,
      removeBlobAt_eq hn f]
    have hlen : (setNodeAt nodes id { n with storage := blobRemove n.storage f }).length =
        nodes.length := length_setNodeAt nodes id _
    exact ih _ (fun x hx => by rw [hlen]; exact hrange x (List.mem_cons_of_mem _ hx))
      (fun x hx => hnofail x (List.mem_cons_of_mem _ hx))

/-- Claim C8 as frozen is false on the code: the delete loop has no activity
check, so the blob on an INACTIVE listed node (node 2 here) is removed as
well — it is not "left unchanged". -/
def dC8 : DistributedFS :=
  { nodes := [{ id := 1, active := true, storage := [("f", "x")] },
              { id := 2, active := false, storage := [("f", "x")] }],
    metadata := [("f", [1, 2])],
    disk := none }

/-- Counterexample to claim C8 as stated: node 2 is inactive, listed, and
holds the blob, yet after `deleteFile` its copy of the blob is gone. -/
theorem C8_delete_counterexample :
    activeAt dC8.nodes 2 = false ∧
    blobGet (storageAt dC8.nodes 2) "f" = some "x" ∧
    (deleteFile dC8 "f" []).map (fun r => blobGet (storageAt r.1.nodes 2) "f") =
      some none ∧
    (deleteFile dC8 "f" []).map (fun r => r.2) = some DeleteOutcome.ok := by
  decide

/-- Claim C8 (amended): `deleteFile` attempts blob deletion on EVERY listed
node regardless of its activity flag — after a fault-free delete no listed
node, active or inactive, still holds the blob, so a later-recovered node
cannot resurface the file. -/
theorem C8_delete_removes_on_inactive (d : DistributedFS) (f : String) (ids : List Int)
    (hrec : mapGet d.metadata f = some ids)
    (hrange : IdsInRange d.nodes.length ids) :
    ∃ d1, deleteFile d f [] = some (d1, DeleteOutcome.ok) ∧
      ∀ i ∈ ids, blobGet (storageAt d1.nodes i) f = none := by
  have hdl := deleteLoop_clean f [] ids d.nodes hrange (by simp)
  have hres : deleteFile d f [] = some (saveMetadata { d with nodes := removeBlobAll d.nodes ids f, metadata := mapErase d.metadata f }, DeleteOutcome.ok) := by
    simp only [deleteFile, hrec, hdl, option_some_bind]
    rfl
  exact ⟨_, hres, fun i hi => blobGet_none_of_mem_removeBlobAll f ids d.nodes i hi hrange⟩

/-- Witness for the amended C8 at the concrete state `dC8`. -/
theorem C8_delete_removes_on_inactive_witness :
    ∃ d1, deleteFile dC8 "f" [] = some (d1, DeleteOutcome.ok) ∧
      ∀ i ∈ [(1 : Int), 2], blobGet (storageAt d1.nodes i) "f" = none :=
  C8_delete_removes_on_inactive dC8 "f" [1, 2] (by decide) (by decide)

/-- Concrete state for C7: one active node holding the blob, one record. -/
def dC7 : DistributedFS :=
  { nodes := [{ id := 1, active := true, storage := [("f", "x")] }],
    metadata := [("f", [1])],
    disk := none }

/-- Counterexample to claim C7 as stated: when the `fs::remove` call on
node 1 throws (an environmental I/O error), the catch block returns early —
the delete reports an error and the file record is NOT removed from the
metadata store, contradicting "not fatal to the overall delete: the file
record is still removed". -/
theorem C7_delete_counterexample :
    (deleteFile dC7 "f" [1]).map (fun r => r.2) = some DeleteOutcome.ioError ∧
    (deleteFile dC7 "f" [1]).map (fun r => mapGet r.1.metadata "f") = some (some [1]) ∧
    (deleteFile dC7 "f" [1]).map (fun r => r.1.disk) = some none := by
  decide

/-- Claim C7 (amended): `deleteFile` fails with `FileNotFound` iff no record
exists.  A blob missing from a node's directory is NOT an error
(`fs::remove` silently succeeds), so in the absence of genuine I/O errors
the record is always removed and the metadata persisted; but a genuine
per-node deletion error aborts the whole delete: the outcome is an I/O
error and the record is kept, unpersisted. -/
theorem C7_delete_spec (d : DistributedFS) (f : String) (failIds : List Int) :
    (deleteFile d f failIds = some (d, DeleteOutcome.fileNotFound) ↔
      mapGet d.metadata f = none) ∧
    (∀ ids, mapGet d.metadata f = some ids → IdsInRange d.nodes.length ids →
      ((∀ i ∈ ids, i ∉ failIds) →
        deleteFile d f failIds =
          some (saveMetadata { d with nodes := removeBlobAll d.nodes ids f, metadata := mapErase d.metadata f }, DeleteOutcome.ok)) ∧
      (∀ d1, deleteFile d f failIds = some (d1, DeleteOutcome.ioError) →
        d1.metadata = d.metadata ∧ d1.disk = d.disk)) := by
  constructor
  · constructor
    · intro h
      cases hm : mapGet d.metadata f with
      | none => rfl
      | some ids =>
        have hd : deleteFile d f failIds =
            (deleteLoop f failIds d.nodes ids) >>= (fun r =>
              if r.2 then
                pure (saveMetadata { d with nodes := r.1, metadata := mapErase d.metadata f },
                  DeleteOutcome.ok)
              else pure ({ d with nodes := r.1 }, DeleteOutcome.ioError)) := by
          simp only [deleteFile, hm]
        rw [hd] at h
        rcases Option.bind_eq_some.mp h with ⟨r, _, hr2⟩
        by_cases hb : r.2
        · rw [if_pos hb] at hr2
          have h2 : DeleteOutcome.ok = DeleteOutcome.fileNotFound :=
            congrArg Prod.snd (Option.some.inj hr2)
          cases h2
        · rw [if_neg hb] at hr2
          have h2 : DeleteOutcome.ioError = DeleteOutcome.fileNotFound :=
            congrArg Prod.snd (Option.some.inj hr2)
          cases h2
    · intro h
      simp only [deleteFile, h]
  · intro ids hm hrange
    constructor
    · intro hnofail
      have hdl := deleteLoop_clean f failIds ids d.nodes hrange hnofail
      simp only [deleteFile, hm, hdl, option_some_bind]
      rfl
    · intro d1 h
      have hd : deleteFile d f failIds =
          (deleteLoop f failIds d.nodes ids) >>= (fun r =>
            if r.2 then
              pure (saveMetadata { d with nodes := r.1, metadata := mapErase d.metadata f },
                DeleteOutcome.ok)
            else pure ({ d with nodes := r.1 }, DeleteOutcome.ioError)) := by
        simp only [deleteFile, hm]
      rw [hd] at h
      rcases Option.bind_eq_some.mp h with ⟨r, _, hr2⟩
      by_cases hb : r.2
      · rw [if_pos hb] at hr2
        have h2 : DeleteOutcome.ok = DeleteOutcome.ioError :=
          congrArg Prod.snd (Option.some.inj hr2)
        cases h2
      · rw [if_neg hb] at hr2
        have : ({ d with nodes := r.1 }, DeleteOutcome.ioError) =
            (d1, DeleteOutcome.ioError) := by
          simpa using hr2
        have hd1 : d1 = { d with nodes := r.1 } := by
          have := congrArg Prod.fst this
          simpa using this.symm
        rw [hd1]
        exact ⟨rfl, rfl⟩

/-- Witness for the amended C7: a fault-free delete on `dC7` removes the
record, persists the metadata, and reports success; and with all hypotheses
of the theorem discharged at `dC7`. -/
theorem C7_delete_spec_witness :
    deleteFile dC7 "f" [] =
      some (saveMetadata { dC7 with nodes := removeBlobAll dC7.nodes [1] "f", metadata := mapErase dC7.metadata "f" }, DeleteOutcome.ok) :=
  (((C7_delete_spec dC7 "f" []).2 [1] (by decide) (by decide)).1 (by decide))

/-! ## C6: upload placement -/

theorem uploadLoop_spec (f c : String) :
    ∀ (nodes : List Node) (r0 : Nat) (used0 : List Int), r0 < REPLICATION →
    (uploadLoop f c nodes r0 used0).2.1 =
      used0 ++ ((nodes.filter (fun n => n.active = true)).take (REPLICATION - r0)).map
        (fun n => n.id) ∧
    (uploadLoop f c nodes r0 used0).2.2 =
      r0 + ((nodes.filter (fun n => n.active = true)).take (REPLICATION - r0)).length ∧
    skeletonOf (uploadLoop f c nodes r0 used0).1 = skeletonOf nodes := by
  intro nodes
  induction nodes with
  | nil =>
    intro r0 used0 h
    simp [uploadLoop]
  | cons n rest ih =>
    intro r0 used0 hr0
    by_cases hb : n.active = true
    · by_cases hfull : r0 + 1 = REPLICATION
      · have hred : uploadLoop f c (n :: rest) r0 used0 =
            ({ n with storage := blobPut n.storage f c } :: rest,
             used0 ++ [n.id], r0 + 1) := by
          simp only [uploadLoop, hb, if_true]
          rw [if_pos hfull]
        have htake : REPLICATION - r0 = 1 := by omega
        rw [hred, List.filter_cons, htake]
        simp [hb, skeletonOf, hfull]
      · have hr1 : r0 + 1 < REPLICATION := by
          unfold REPLICATION at hr0 hfull ⊢
          omega
        have hred : uploadLoop f c (n :: rest) r0 used0 =
            ({ n with storage := blobPut n.storage f c } ::
               (uploadLoop f c rest (r0 + 1) (used0 ++ [n.id])).1,
             (uploadLoop f c rest (r0 + 1) (used0 ++ [n.id])).2.1,
             (uploadLoop f c rest (r0 + 1) (used0 ++ [n.id])).2.2) := by
          simp only [uploadLoop, hb, if_true]
          rw [if_neg hfull]
        obtain ⟨ih1, ih2, ih3⟩ := ih (r0 + 1) (used0 ++ [n.id]) hr1
        have htake : REPLICATION - r0 = (REPLICATION - (r0 + 1)) + 1 := by omega
        rw [hred, List.filter_cons, htake]
        simp only [hb]
        refine ⟨?_, ?_, ?_⟩
        · rw [ih1]
          simp [List.append_assoc]
        · rw [ih2]
          simp only [decide_eq_true_eq, List.take_succ_cons, List.length_cons, if_true]
          simp
          omega
        · simp only [skeletonOf, List.map_cons]
          simp only [skeletonOf] at ih3
          rw [ih3, hb]
    · have hbf : ¬(n.active = true) := hb
      have hfull : ¬(r0 = REPLICATION) := by omega
      have hred : uploadLoop f c (n :: rest) r0 used0 =
          (n :: (uploadLoop f c rest r0 used0).1,
           (uploadLoop f c rest r0 used0).2.1,
           (uploadLoop f c rest r0 used0).2.2) := by
        simp [uploadLoop, hbf, hfull]
      obtain ⟨ih1, ih2, ih3⟩ := ih r0 used0 hr0
      rw [hred, List.filter_cons]
      have hdec : decide (n.active = true) = false := by simp [hbf]
      rw [hdec]
      simp only [Bool.false_eq_true, if_false]
      exact ⟨ih1, ih2, by simp only [skeletonOf, List.map_cons]; simp only [skeletonOf] at ih3; rw [ih3]⟩

theorem mapIdFilterActive_skel {n1 n2 : List Node} (h : skeletonOf n1 = skeletonOf n2) :
    (n1.filter (fun n => n.active = true)).map (fun n => n.id) =
      (n2.filter (fun n => n.active = true)).map (fun n => n.id) := by
  induction n1 generalizing n2 with
  | nil =>
    cases n2 with
    | nil => rfl
    | cons y r2 => simp [skeletonOf] at h
  | cons x r1 ih =>
    cases n2 with
    | nil => simp [skeletonOf] at h
    | cons y r2 =>
      simp only [skeletonOf, List.map_cons, List.cons.injEq, Prod.mk.injEq] at h
      have htail := ih (by simpa [skeletonOf] using h.2)
      simp only [List.filter_cons]
      rw [h.1.2]
      cases hq : decide (y.active = true) with
      | false => simpa using htail
      | true =>
        simp only [if_true, List.map_cons]
        rw [htail, h.1.1]

theorem firstActiveIds_skel {n1 n2 : List Node} (h : skeletonOf n1 = skeletonOf n2) :
    firstActiveIds n1 = firstActiveIds n2 := by
  unfold firstActiveIds
  rw [List.map_take, List.map_take, mapIdFilterActive_skel h]

theorem filterActive_length_skel {n1 n2 : List Node} (h : skeletonOf n1 = skeletonOf n2) :
    (n1.filter (fun n => n.active = true)).length =
      (n2.filter (fun n => n.active = true)).length := by
  have := congrArg List.length (mapIdFilterActive_skel h)
  simpa using this

theorem upload_ok (d : DistributedFS) (f c : String)
    (hact : REPLICATION ≤ (d.nodes.filter (fun n => n.active = true)).length) :
    ∃ d1, upload d f (some c) = (d1, UploadOutcome.ok) ∧
      mapGet d1.metadata f = some (firstActiveIds d.nodes) ∧
      skeletonOf d1.nodes = skeletonOf d.nodes := by
  obtain ⟨h1, h2, h3⟩ := uploadLoop_spec f c d.nodes 0 []
    (by unfold REPLICATION; omega)
  have hcnt : (uploadLoop f c d.nodes 0 []).2.2 = REPLICATION := by
    rw [h2, Nat.sub_zero, List.length_take, Nat.min_eq_left hact]
    omega
  have hused : (uploadLoop f c d.nodes 0 []).2.1 = firstActiveIds d.nodes := by
    rw [h1, Nat.sub_zero]
    unfold firstActiveIds
    simp
  have hnotlt : ¬((uploadLoop f c d.nodes 0 []).2.2 < REPLICATION) := by
    rw [hcnt]
    omega
  refine ⟨saveMetadata { d with nodes := (uploadLoop f c d.nodes 0 []).1, metadata := mapSet d.metadata f (uploadLoop f c d.nodes 0 []).2.1 }, ?_, ?_, ?_⟩
  · simp only [upload]
    rw [if_neg hnotlt]
  · show mapGet (mapSet d.metadata f (uploadLoop f c d.nodes 0 []).2.1) f = _
    rw [mapGet_mapSet_self, hused]
  · exact h3

theorem nodesWFAux_pairwise {l : List Node} {k : Int} (h : nodesWFAux l k = true) :
    List.Pairwise (fun a b : Node => a.id < b.id) l := by
  induction l generalizing k with
  | nil => exact List.Pairwise.nil
  | cons x rest ih =>
    have h0 := h
    simp only [nodesWFAux, Bool.and_eq_true, decide_eq_true_eq] at h
    exact List.Pairwise.cons (fun y hy => nodesWFAux_head_lt h0 y hy) (ih h.2)

theorem firstActiveIds_sorted {nodes : List Node} (hwf : NodesWF nodes) :
    List.Pairwise (fun a b : Int => a < b) (firstActiveIds nodes) := by
  have hp : List.Pairwise (fun a b : Node => a.id < b.id) nodes := nodesWFAux_pairwise hwf
  have hsub : List.Sublist ((nodes.filter (fun n => n.active = true)).take REPLICATION) nodes :=
    List.Sublist.trans (List.take_sublist _ _) (List.filter_sublist _)
  have hp2 := hp.sublist hsub
  unfold firstActiveIds
  exact List.Pairwise.map _ (fun a b hab => hab) hp2

theorem firstActiveIds_nodup {nodes : List Node} (hwf : NodesWF nodes) :
    (firstActiveIds nodes).Nodup :=
  (firstActiveIds_sorted hwf).imp (fun hab => ne_of_lt hab)

theorem firstActiveIds_length {nodes : List Node}
    (hact : REPLICATION ≤ (nodes.filter (fun n => n.active = true)).length) :
    (firstActiveIds nodes).length = REPLICATION := by
  unfold firstActiveIds
  rw [List.length_map, List.length_take, Nat.min_eq_left hact]

/-- Claim C6: immediately after a successful upload the file's record holds
exactly `R = 3` distinct node ids — the ids of the first `R` active nodes in
ascending id order; and re-uploading the same filename yields a record with
exactly `R` entries again (the second upload's placement replaces the
first), not `2R`. -/
theorem C6_upload_places_first_R (d : DistributedFS) (f : String)
    (hwf : NodesWF d.nodes)
    (hact : REPLICATION ≤ (d.nodes.filter (fun n => n.active = true)).length)
    (c : String) :
    ∃ d1, upload d f (some c) = (d1, UploadOutcome.ok) ∧
      mapGet d1.metadata f = some (firstActiveIds d.nodes) ∧
      (firstActiveIds d.nodes).length = REPLICATION ∧
      (firstActiveIds d.nodes).Nodup ∧
      List.Pairwise (fun a b : Int => a < b) (firstActiveIds d.nodes) ∧
      ∀ c2, ∃ d2, upload d1 f (some c2) = (d2, UploadOutcome.ok) ∧
        mapGet d2.metadata f = some (firstActiveIds d.nodes) ∧
        ∀ v, mapGet d2.metadata f = some v → v.length = REPLICATION := by
  obtain ⟨d1, hup, hget, hskel⟩ := upload_ok d f c hact
  refine ⟨d1, hup, hget, firstActiveIds_length hact, firstActiveIds_nodup hwf,
    firstActiveIds_sorted hwf, ?_⟩
  intro c2
  have hact1 : REPLICATION ≤ (d1.nodes.filter (fun n => n.active = true)).length := by
    rw [filterActive_length_skel hskel]
    exact hact
  obtain ⟨d2, hup2, hget2, _⟩ := upload_ok d1 f c2 hact1
  have hfa : firstActiveIds d1.nodes = firstActiveIds d.nodes := firstActiveIds_skel hskel
  rw [hfa] at hget2
  refine ⟨d2, hup2, hget2, ?_⟩
  intro v hv
  rw [hget2] at hv
  have : firstActiveIds d.nodes = v := by simpa using hv
  rw [← this]
  exact firstActiveIds_length hact

/-- Concrete pool for the C6 witness: four nodes, node 2 inactive. -/
def dC6 : DistributedFS :=
  { nodes := [{ id := 1, active := true, storage := [] },
              { id := 2, active := false, storage := [] },
              { id := 3, active := true, storage := [] },
              { id := 4, active := true, storage := [] }],
    metadata := [],
    disk := none }

/-- Witness for C6 at `dC6`: the placement is the first three active nodes
`[1, 3, 4]` in ascending order, re-upload included. -/
theorem C6_upload_places_first_R_witness :
    ∃ d1, upload dC6 "a" (some "x") = (d1, UploadOutcome.ok) ∧
      mapGet d1.metadata "a" = some (firstActiveIds dC6.nodes) ∧
      (firstActiveIds dC6.nodes).length = REPLICATION ∧
      (firstActiveIds dC6.nodes).Nodup ∧
      List.Pairwise (fun a b : Int => a < b) (firstActiveIds dC6.nodes) ∧
      ∀ c2, ∃ d2, upload d1 "a" (some c2) = (d2, UploadOutcome.ok) ∧
        mapGet d2.metadata "a" = some (firstActiveIds dC6.nodes) ∧
        ∀ v, mapGet d2.metadata "a" = some v → v.length = REPLICATION :=
  C6_upload_places_first_R dC6 "a" (by decide) (by decide) "x"

/-! ## C2: health check after node failure/recovery -/

theorem restoreLoop_skel {f : String} {srcId : Int} :
    ∀ (ids : List Int) (nodes : List Node) (cnt : Nat) (r : List Node × Nat × Bool),
    restoreLoop f srcId nodes cnt ids = some r → skeletonOf r.1 = skeletonOf nodes := by
  intro ids
  induction ids with
  | nil =>
    intro nodes cnt r h
    have : r = (nodes, cnt, true) := by simpa [restoreLoop] using h.symm
    rw [this]
  | cons id rest ih =>
    intro nodes cnt r h
    cases hn : getNode? nodes id with
    | none =>
      exfalso
      simp only [restoreLoop, hn] at h
      cases h
    | some n =>
      by_cases hguard : n.active = false ∧ cnt < REPLICATION
      · cases hsrc : getNode? nodes srcId with
        | none =>
          exfalso
          simp only [restoreLoop, hn, option_some_bind] at h
          rw [if_pos hguard, hsrc] at h
          cases h
        | some src =>
          cases hc : blobGet src.storage f with
          | none =>
            rw [restoreLoop_cons_throw hn hguard.1 hguard.2 hsrc hc rest] at h
            have : r = (nodes, cnt, false) := by simpa using h.symm
            rw [this]
          | some c =>
            rw [restoreLoop_cons_restore hn hguard.1 hguard.2 hsrc hc rest] at h
            have hstep := ih (setNodeAt nodes id
              { n with storage := blobPut n.storage f c }) (cnt + 1) r h
            rw [hstep]
            have h1 : 1 ≤ id := (range_of_getNode?_some hn).1
            have h2 : nthNode nodes (id - 1).toNat = some n := by
              rw [getNode?_eq_nthNode h1] at hn
              exact hn
            exact skeletonOf_setNth h2 rfl rfl
      · rw [restoreLoop_cons_skip hn hguard rest] at h
        exact ih nodes cnt r h

theorem growthLoop_skel {f : String} {srcId : Int} :
    ∀ (rest processed : List Node) (cur : List Int) (cnt : Nat)
      (g : List Node × List Int × Nat × Bool),
    growthLoop f srcId processed rest cur cnt = some g →
    skeletonOf g.1 = skeletonOf (processed ++ rest) := by
  intro rest
  induction rest with
  | nil =>
    intro processed cur cnt g h
    have : g = (processed, cur, cnt, true) := by simpa [growthLoop] using h.symm
    rw [this]
    simp
  | cons n rest ih =>
    intro processed cur cnt g h
    by_cases hguard : n.active = true ∧ n.id ∉ cur
    · cases hsc : (getNode? (processed ++ n :: rest) srcId).bind
        (fun src => blobGet src.storage f) with
      | none =>
        rw [growthLoop_cons_throw hguard hsc cnt] at h
        have : g = (processed ++ n :: rest, cur, cnt, false) := by simpa using h.symm
        rw [this]
      | some c =>
        rw [growthLoop_cons_add hguard hsc cnt] at h
        by_cases hbreak : REPLICATION ≤ cnt + 1
        · rw [if_pos hbreak] at h
          have : g = (processed ++ { n with storage := blobPut n.storage f c } :: rest,
              cur ++ [n.id], cnt + 1, true) := by simpa using h.symm
          rw [this]
          exact skeletonOf_middle_storage processed n rest _
        · rw [if_neg hbreak] at h
          have hstep := ih (processed ++ [{ n with storage := blobPut n.storage f c }])
            (cur ++ [n.id]) (cnt + 1) g h
          rw [hstep, List.append_assoc, List.singleton_append]
          exact skeletonOf_middle_storage processed n rest _
    · rw [growthLoop_cons_skip hguard f srcId processed rest cnt] at h
      have hstep := ih (processed ++ [n]) cur cnt g h
      rw [hstep, List.append_assoc, List.singleton_append]

theorem growthLoop_total (f : String) (srcId : Int) :
    ∀ (rest processed : List Node) (cur : List Int) (cnt : Nat),
    ∃ g, growthLoop f srcId processed rest cur cnt = some g := by
  intro rest
  induction rest with
  | nil => intro processed cur cnt; exact ⟨_, rfl⟩
  | cons n rest ih =>
    intro processed cur cnt
    by_cases hguard : n.active = true ∧ n.id ∉ cur
    · cases hsc : (getNode? (processed ++ n :: rest) srcId).bind
        (fun src => blobGet src.storage f) with
      | none => exact ⟨_, growthLoop_cons_throw hguard hsc cnt⟩
      | some c =>
        by_cases hbreak : REPLICATION ≤ cnt + 1
        · refine ⟨(processed ++ { n with storage := blobPut n.storage f c } :: rest,
            cur ++ [n.id], cnt + 1, true), ?_⟩
          rw [growthLoop_cons_add hguard hsc cnt, if_pos hbreak]
        · obtain ⟨g, hg⟩ := ih (processed ++ [{ n with storage := blobPut n.storage f c }])
            (cur ++ [n.id]) (cnt + 1)
          refine ⟨g, ?_⟩
          rw [growthLoop_cons_add hguard hsc cnt, if_neg hbreak]
          exact hg
    · obtain ⟨g, hg⟩ := ih (processed ++ [n]) cur cnt
      refine ⟨g, ?_⟩
      rw [growthLoop_cons_skip hguard f srcId processed rest cnt]
      exact hg

theorem restoreLoop_total (f : String) (srcId : Int) :
    ∀ (ids : List Int) (nodes : List Node) (cnt : Nat),
    IdsInRange nodes.length ids →
    1 ≤ srcId → srcId ≤ (nodes.length : Int) →
    ∃ r, restoreLoop f srcId nodes cnt ids = some r := by
  intro ids
  induction ids with
  | nil => intro nodes cnt _ _ _; exact ⟨_, rfl⟩
  | cons id rest ih =>
    intro nodes cnt hrange hs1 hs2
    obtain ⟨n, hn⟩ := getNode?_some_of_range (hrange id (by simp)).1 (hrange id (by simp)).2
    have hrest : IdsInRange nodes.length rest := fun i hi => hrange i (List.mem_cons_of_mem _ hi)
    by_cases hguard : n.active = false ∧ cnt < REPLICATION
    · obtain ⟨src, hsrc⟩ := getNode?_some_of_range hs1 hs2
      cases hc : blobGet src.storage f with
      | none => exact ⟨_, restoreLoop_cons_throw hn hguard.1 hguard.2 hsrc hc rest⟩
      | some c =>
        have hlen : (setNodeAt nodes id { n with storage := blobPut n.storage f c }).length =
            nodes.length := length_setNodeAt nodes id _
        obtain ⟨r, hr⟩ := ih (setNodeAt nodes id { n with storage := blobPut n.storage f c })
          (cnt + 1) (fun i hi => by rw [hlen]; exact hrest i hi) hs1 (by rw [hlen]; exact hs2)
        refine ⟨r, ?_⟩
        rw [restoreLoop_cons_restore hn hguard.1 hguard.2 hsrc hc rest]
        exact hr
    · obtain ⟨r, hr⟩ := ih nodes cnt hrest hs1 hs2
      refine ⟨r, ?_⟩
      rw [restoreLoop_cons_skip hn hguard rest]
      exact hr

theorem reRep_total_frame (d : DistributedFS) (f : String)
    (h : ∀ ids, mapGet d.metadata f = some ids → IdsInRange d.nodes.length ids) :
    ∃ d1, reReplicateFile d f = some d1 ∧
      skeletonOf d1.nodes = skeletonOf d.nodes ∧
      (∀ g, g ≠ f → mapGet d1.metadata g = mapGet d.metadata g) := by
  cases hm : mapGet d.metadata f with
  | none =>
    refine ⟨d, ?_, rfl, fun g _ => rfl⟩
    simp only [reReplicateFile, hm]
  | some ids =>
    have hrange := h ids hm
    have hcnt : countActive? d.nodes ids = some (countActiveIds d.nodes ids) :=
      countActive?_eq_countActiveIds hrange
    by_cases hge : REPLICATION ≤ countActiveIds d.nodes ids
    · refine ⟨d, ?_, rfl, fun g _ => rfl⟩
      simp only [reReplicateFile, hm, hcnt, option_some_bind]
      rw [if_pos hge]
      rfl
    · obtain ⟨srcOpt, hfs⟩ := findSource?_some_of_range hrange
      cases srcOpt with
      | none =>
        refine ⟨d, ?_, rfl, fun g _ => rfl⟩
        simp only [reReplicateFile, hm, hcnt, option_some_bind]
        rw [if_neg hge]
        simp only [hfs, option_some_bind]
        rfl
      | some srcId =>
        obtain ⟨hmem, _⟩ := findSource?_spec hfs
        obtain ⟨r, hr⟩ := restoreLoop_total f srcId ids d.nodes (countActiveIds d.nodes ids)
          hrange (hrange srcId hmem).1 (hrange srcId hmem).2
        obtain ⟨nodes1, cnt1, ok1⟩ := r
        have hskel1 : skeletonOf nodes1 = skeletonOf d.nodes :=
          restoreLoop_skel ids d.nodes (countActiveIds d.nodes ids) (nodes1, cnt1, ok1) hr
        cases ok1 with
        | false =>
          refine ⟨{ d with nodes := nodes1 }, ?_, hskel1, fun g _ => rfl⟩
          simp only [reReplicateFile, hm, hcnt, option_some_bind]
          rw [if_neg hge]
          simp only [hfs, option_some_bind, hr, Bool.false_eq_true, if_false]
          rfl
        | true =>
          by_cases hlt1 : cnt1 < REPLICATION
          · obtain ⟨g0, hg⟩ := growthLoop_total f srcId nodes1 [] ids cnt1
            obtain ⟨gn, gc, gcnt, gok⟩ := g0
            have hskel2 : skeletonOf gn = skeletonOf d.nodes := by
              have := growthLoop_skel nodes1 [] ids cnt1 (gn, gc, gcnt, gok) hg
              rw [this]
              simpa using hskel1
            have hframe : ∀ g, g ≠ f →
                mapGet (mapSet d.metadata f gc) g = mapGet d.metadata g :=
              fun g hg2 => mapGet_mapSet_ne d.metadata gc (fun e => hg2 e.symm)
            cases gok with
            | true =>
              refine ⟨saveMetadata { d with nodes := gn, metadata := mapSet d.metadata f gc },
                ?_, hskel2, hframe⟩
              simp only [reReplicateFile, hm, hcnt, option_some_bind]
              rw [if_neg hge]
              simp only [hfs, option_some_bind, hr, if_true]
              rw [if_pos hlt1]
              simp only [hg, option_some_bind]
              rfl
            | false =>
              refine ⟨{ d with nodes := gn, metadata := mapSet d.metadata f gc },
                ?_, hskel2, hframe⟩
              simp only [reReplicateFile, hm, hcnt, option_some_bind]
              rw [if_neg hge]
              simp only [hfs, option_some_bind, hr, if_true]
              rw [if_pos hlt1]
              simp only [hg, option_some_bind, Bool.false_eq_true, if_false]
              rfl
          · refine ⟨saveMetadata { d with nodes := nodes1 }, ?_, hskel1, fun g _ => rfl⟩
            simp only [reReplicateFile, hm, hcnt, option_some_bind]
            rw [if_neg hge]
            simp only [hfs, option_some_bind, hr, if_true]
            rw [if_neg hlt1]
            rfl

theorem checkOne_spec {d : DistributedFS} {f : String} {ids : List Int}
    (hrec : mapGet d.metadata f = some ids) (hrange : IdsInRange d.nodes.length ids) :
    (2 ≤ countActiveIds d.nodes ids → checkOne d f = some (d, false)) ∧
    (countActiveIds d.nodes ids < 2 →
      ∃ d1, checkOne d f = some (d1, true) ∧ reReplicateFile d f = some d1 ∧
        skeletonOf d1.nodes = skeletonOf d.nodes ∧
        (∀ g, g ≠ f → mapGet d1.metadata g = mapGet d.metadata g)) := by
  have hcnt := countActive?_eq_countActiveIds hrange
  constructor
  · intro hge
    simp only [checkOne, hrec, hcnt, option_some_bind]
    rw [if_neg (Nat.not_lt.mpr hge)]
    rfl
  · intro hlt
    obtain ⟨d1, hrr, hskel, hframe⟩ := reRep_total_frame d f (fun ids2 h2 => by
      rw [hrec] at h2
      exact (Option.some.inj h2) ▸ hrange)
    refine ⟨d1, ?_, hrr, hskel, hframe⟩
    simp only [checkOne, hrec, hcnt, option_some_bind]
    rw [if_pos hlt]
    simp only [hrr, option_some_bind]
    rfl

theorem healthLoop_spec :
    ∀ (ks : List String) (d : DistributedFS) (acc : List String),
    ks.Nodup →
    (∀ g ∈ ks, ∃ ids, mapGet d.metadata g = some ids ∧ IdsInRange d.nodes.length ids) →
    ∃ d2, healthLoop d acc ks =
        some (d2, acc ++ ks.filter (fun g =>
          decide (countActiveIds d.nodes ((mapGet d.metadata g).getD []) < 2))) ∧
      skeletonOf d2.nodes = skeletonOf d.nodes ∧
      (∀ g, g ∉ ks → mapGet d2.metadata g = mapGet d.metadata g) ∧
      (∀ g ∈ ks, 2 ≤ countActiveIds d.nodes ((mapGet d.metadata g).getD []) →
        mapGet d2.metadata g = mapGet d.metadata g) := by
  intro ks
  induction ks with
  | nil =>
    intro d acc _ _
    exact ⟨d, by simp [healthLoop], rfl, fun g _ => rfl, fun g hg => absurd hg (by simp)⟩
  | cons k rest ih =>
    intro d acc hnodup hrecs
    obtain ⟨ids, hrec, hrange⟩ := hrecs k (by simp)
    have hknotin : k ∉ rest := (List.nodup_cons.mp hnodup).1
    have hrestnodup : rest.Nodup := (List.nodup_cons.mp hnodup).2
    have hgetD : (mapGet d.metadata k).getD [] = ids := by rw [hrec]; rfl
    by_cases hlt : countActiveIds d.nodes ids < 2
    · -- k is warned and repaired
      obtain ⟨d1, hco, _, hskel1, hframe1⟩ := (checkOne_spec hrec hrange).2 hlt
      have hlen1 : d1.nodes.length = d.nodes.length := length_of_skeletonOf_eq hskel1
      have hrecs1 : ∀ g ∈ rest, ∃ ids2, mapGet d1.metadata g = some ids2 ∧
          IdsInRange d1.nodes.length ids2 := by
        intro g hg
        obtain ⟨ids2, hr2, hra2⟩ := hrecs g (List.mem_cons_of_mem _ hg)
        refine ⟨ids2, ?_, ?_⟩
        · rw [hframe1 g (fun he => hknotin (he ▸ hg))]
          exact hr2
        · rw [hlen1]
          exact hra2
      obtain ⟨d2, hloop, hskel2, hout2, hkeep2⟩ := ih d1 (acc ++ [k]) hrestnodup hrecs1
      have hfilter_eq : rest.filter (fun g =>
            decide (countActiveIds d1.nodes ((mapGet d1.metadata g).getD []) < 2)) =
          rest.filter (fun g =>
            decide (countActiveIds d.nodes ((mapGet d.metadata g).getD []) < 2)) := by
        apply List.filter_congr
        intro g hg
        rw [hframe1 g (fun he => hknotin (he ▸ hg)), countActiveIds_skel hskel1]
      have hstep : healthLoop d acc (k :: rest) = healthLoop d1 (acc ++ [k]) rest := by
        simp only [healthLoop, hco, option_some_bind]
        simp
      refine ⟨d2, ?_, ?_, ?_, ?_⟩
      · rw [hstep, hloop, hfilter_eq]
        have hpred : decide (countActiveIds d.nodes ((mapGet d.metadata k).getD []) < 2) =
            true := by
          rw [hgetD]
          simpa using hlt
        rw [List.filter_cons, hpred]
        simp
      · exact hskel2.trans hskel1
      · intro g hg
        have hg1 : g ∉ rest := fun h2 => hg (List.mem_cons_of_mem _ h2)
        have hg2 : g ≠ k := fun he => hg (he ▸ List.mem_cons_self k rest)
        rw [hout2 g hg1, hframe1 g hg2]
      · intro g hg hge
        rcases List.mem_cons.mp hg with he | hg3
        · subst he
          rw [hgetD] at hge
          omega
        · have hgk : g ≠ k := fun he => hknotin (he ▸ hg3)
          have hrec1g : mapGet d1.metadata g = mapGet d.metadata g := hframe1 g hgk
          have hcnt1g : countActiveIds d1.nodes ((mapGet d1.metadata g).getD []) =
              countActiveIds d.nodes ((mapGet d.metadata g).getD []) := by
            rw [hrec1g, countActiveIds_skel hskel1]
          rw [hkeep2 g hg3 (by rw [hcnt1g]; exact hge), hrec1g]
    · -- k is healthy: nothing happens
      have hge : 2 ≤ countActiveIds d.nodes ids := Nat.not_lt.mp hlt
      have hco := (checkOne_spec hrec hrange).1 hge
      have hstep : healthLoop d acc (k :: rest) = healthLoop d acc rest := by
        simp only [healthLoop, hco, option_some_bind]
        simp
      obtain ⟨d2, hloop, hskel2, hout2, hkeep2⟩ := ih d acc hrestnodup
        (fun g hg => hrecs g (List.mem_cons_of_mem _ hg))
      refine ⟨d2, ?_, hskel2, ?_, ?_⟩
      · rw [hstep, hloop]
        have hpred : decide (countActiveIds d.nodes ((mapGet d.metadata k).getD []) < 2) =
            false := by
          rw [hgetD]
          simpa using hge
        rw [List.filter_cons, hpred]
        simp
      · intro g hg
        exact hout2 g (fun h2 => hg (List.mem_cons_of_mem _ h2))
      · intro g hg hge2
        rcases List.mem_cons.mp hg with he | hg3
        · subst he
          exact hout2 g hknotin
        · exact hkeep2 g hg3 hge2

theorem mapGet_some_of_mem_keys {m : List (String × List Int)} {k : String}
    (h : k ∈ mapKeys m) : ∃ v, mapGet m k = some v := by
  cases hv : mapGet m k with
  | none => exact absurd ((mapGet_none_iff m k).mp hv) (by simpa using h)
  | some v => exact ⟨v, rfl⟩

theorem toggle_healthcheck_spec (d : DistributedFS) (id : Int) (b : Bool)
    (hinv : Invariant d) (hkeys : (mapKeys d.metadata).Nodup) :
    ∃ d2 warned,
      checkReplicaHealth { d with nodes := setNodeActive d.nodes id b } = some (d2, warned) ∧
      ∀ f ids, mapGet d.metadata f = some ids →
        ((f ∈ warned ↔ countActiveIds (setNodeActive d.nodes id b) ids < 2) ∧
         (2 ≤ countActiveIds (setNodeActive d.nodes id b) ids →
           mapGet d2.metadata f = some ids)) := by
  have hlen : (setNodeActive d.nodes id b).length = d.nodes.length :=
    length_setNodeActive d.nodes id b
  have hrecs : ∀ g ∈ mapKeys d.metadata, ∃ ids,
      mapGet d.metadata g = some ids ∧ IdsInRange (setNodeActive d.nodes id b).length ids := by
    intro g hg
    obtain ⟨ids, hget⟩ := mapGet_some_of_mem_keys hg
    refine ⟨ids, hget, ?_⟩
    rw [hlen]
    exact (hinv (g, ids) (mem_of_mapGet_some hget)).2
  obtain ⟨d2, hloop, hskel, hout, hkeep⟩ :=
    healthLoop_spec (mapKeys d.metadata) { d with nodes := setNodeActive d.nodes id b }
      [] hkeys hrecs
  refine ⟨d2, _, hloop, ?_⟩
  intro f ids hrec
  have hmem : f ∈ mapKeys d.metadata := mem_mapKeys_of_mapGet_some hrec
  have hgetD : (mapGet d.metadata f).getD [] = ids := by
    rw [hrec]
    rfl
  constructor
  · constructor
    · intro hf
      have hsplit : f ∈ mapKeys d.metadata ∧
          countActiveIds (setNodeActive d.nodes id b) ((mapGet d.metadata f).getD []) < 2 := by
        simpa using hf
      rw [hgetD] at hsplit
      exact hsplit.2
    · intro hlt
      simp only [List.nil_append]
      exact List.mem_filter.mpr ⟨hmem, by rw [hgetD]; simpa using hlt⟩
  · intro hge
    have := hkeep f hmem (by rw [hgetD]; exact hge)
    rw [this]
    exact hrec

/-- Claim C2: after every `failNode` or `recoverNode` on a valid id, a
synchronous health check examines every file record; a degraded-redundancy
warning and a repair happen for a file iff its count of currently-active
listed nodes is strictly below the constant threshold `2` (independent of
`R = 3`); in particular a file with exactly `2` active replicas triggers
neither a warning nor any change to its record. -/
theorem C2_health_threshold (d : DistributedFS) (id : Int)
    (hinv : Invariant d) (hkeys : (mapKeys d.metadata).Nodup)
    (h1 : 1 ≤ id) (h2 : id ≤ (d.nodes.length : Int)) :
    (∃ d2 warned, failNode d id = some (d2, NodeOpOutcome.ok) ∧
      checkReplicaHealth { d with nodes := setNodeActive d.nodes id false } =
        some (d2, warned) ∧
      ∀ f ids, mapGet d.metadata f = some ids →
        ((f ∈ warned ↔ countActiveIds (setNodeActive d.nodes id false) ids < 2) ∧
         (2 ≤ countActiveIds (setNodeActive d.nodes id false) ids →
           mapGet d2.metadata f = some ids))) ∧
    (∃ d2 warned, recoverNode d id = some (d2, NodeOpOutcome.ok) ∧
      checkReplicaHealth { d with nodes := setNodeActive d.nodes id true } =
        some (d2, warned) ∧
      ∀ f ids, mapGet d.metadata f = some ids →
        ((f ∈ warned ↔ countActiveIds (setNodeActive d.nodes id true) ids < 2) ∧
         (2 ≤ countActiveIds (setNodeActive d.nodes id true) ids →
           mapGet d2.metadata f = some ids))) := by
  have hguard : ¬(id < 1 ∨ (d.nodes.length : Int) < id) := by omega
  constructor
  · obtain ⟨d2, warned, hchk, hprops⟩ := toggle_healthcheck_spec d id false hinv hkeys
    refine ⟨d2, warned, ?_, hchk, hprops⟩
    simp only [failNode]
    rw [if_neg hguard]
    simp only [hchk, option_some_bind]
    rfl
  · obtain ⟨d2, warned, hchk, hprops⟩ := toggle_healthcheck_spec d id true hinv hkeys
    refine ⟨d2, warned, ?_, hchk, hprops⟩
    simp only [recoverNode]
    rw [if_neg hguard]
    simp only [hchk, option_some_bind]
    rfl

/-- Concrete state for the C2 witness: three active nodes; file `f` has
three replicas (two remain active after node 1 fails: no warning), file `g`
is stored only on node 1 (zero active replicas after the failure: warned
and repaired). -/
def dC2 : DistributedFS :=
  { nodes := [{ id := 1, active := true, storage := [("f", "x"), ("g", "y")] },
              { id := 2, active := true, storage := [("f", "x")] },
              { id := 3, active := true, storage := [("f", "x")] }],
    metadata := [("f", [1, 2, 3]), ("g", [1])],
    disk := none }

/-- Witness for C2 at `dC2`, failing node 1. -/
theorem C2_health_threshold_witness :
    ∃ d2 warned, failNode dC2 1 = some (d2, NodeOpOutcome.ok) ∧
      checkReplicaHealth { dC2 with nodes := setNodeActive dC2.nodes 1 false } =
        some (d2, warned) ∧
      ∀ f ids, mapGet dC2.metadata f = some ids →
        ((f ∈ warned ↔ countActiveIds (setNodeActive dC2.nodes 1 false) ids < 2) ∧
         (2 ≤ countActiveIds (setNodeActive dC2.nodes 1 false) ids →
           mapGet d2.metadata f = some ids)) :=
  (C2_health_threshold dC2 1 (by decide) (by decide) (by decide) (by decide)).1

/-! ## C9: the record invariant is preserved by every operation -/

theorem wf_mem_id_range {nodes : List Node} (hwf : NodesWF nodes) {n : Node} (h : n ∈ nodes) :
    1 ≤ n.id ∧ n.id ≤ (nodes.length : Int) := by
  obtain ⟨i, hi⟩ := mem_iff_nthNode.mp h
  have := nodesWFAux_nth hwf i n hi
  have hlt := lt_of_nthNode_some hi
  omega

theorem growthLoop_cur {f : String} {srcId : Int} :
    ∀ (rest processed : List Node) (cur : List Int) (cnt : Nat)
      (g : List Node × List Int × Nat × Bool),
    growthLoop f srcId processed rest cur cnt = some g →
    ∃ app, g.2.1 = cur ++ app ∧ app.Nodup ∧
      ∀ x ∈ app, x ∉ cur ∧ ∃ m ∈ rest, x = m.id := by
  intro rest
  induction rest with
  | nil =>
    intro processed cur cnt g h
    have : g = (processed, cur, cnt, true) := by simpa [growthLoop] using h.symm
    refine ⟨[], by rw [this]; simp, List.nodup_nil, by simp⟩
  | cons n rest ih =>
    intro processed cur cnt g h
    by_cases hguard : n.active = true ∧ n.id ∉ cur
    · cases hsc : (getNode? (processed ++ n :: rest) srcId).bind
        (fun src => blobGet src.storage f) with
      | none =>
        rw [growthLoop_cons_throw hguard hsc cnt] at h
        have : g = (processed ++ n :: rest, cur, cnt, false) := by simpa using h.symm
        refine ⟨[], by rw [this]; simp, List.nodup_nil, by simp⟩
      | some c =>
        rw [growthLoop_cons_add hguard hsc cnt] at h
        by_cases hbreak : REPLICATION ≤ cnt + 1
        · rw [if_pos hbreak] at h
          have hg : g = (processed ++ { n with storage := blobPut n.storage f c } :: rest,
              cur ++ [n.id], cnt + 1, true) := by simpa using h.symm
          refine ⟨[n.id], by rw [hg], List.nodup_singleton _, ?_⟩
          intro x hx
          have hxe : x = n.id := by simpa using hx
          subst hxe
          exact ⟨hguard.2, n, by simp⟩
        · rw [if_neg hbreak] at h
          obtain ⟨app, happ, hnodup, hprops⟩ :=
            ih (processed ++ [{ n with storage := blobPut n.storage f c }])
              (cur ++ [n.id]) (cnt + 1) g h
          refine ⟨n.id :: app, ?_, ?_, ?_⟩
          · rw [happ, List.append_assoc, List.singleton_append]
          · refine List.nodup_cons.mpr ⟨?_, hnodup⟩
            intro hmem
            have := (hprops n.id hmem).1
            exact this (by simp)
          · intro x hx
            rcases List.mem_cons.mp hx with he | hx2
            · subst he
              exact ⟨hguard.2, n, by simp⟩
            · obtain ⟨hnc, m, hm, hxm⟩ := hprops x hx2
              refine ⟨fun hc => hnc (by simp [hc]), m, List.mem_cons_of_mem _ hm, hxm⟩
    · rw [growthLoop_cons_skip hguard f srcId processed rest cnt] at h
      obtain ⟨app, happ, hnodup, hprops⟩ := ih (processed ++ [n]) cur cnt g h
      refine ⟨app, happ, hnodup, ?_⟩
      intro x hx
      obtain ⟨hnc, m, hm, hxm⟩ := hprops x hx
      exact ⟨hnc, m, List.mem_cons_of_mem _ hm, hxm⟩

theorem reRep_invariant {d d1 : DistributedFS} {f : String}
    (h : reReplicateFile d f = some d1) (hwf : NodesWF d.nodes) (hinv : Invariant d) :
    NodesWF d1.nodes ∧ Invariant d1 ∧ d1.nodes.length = d.nodes.length := by
  have hbase : ∀ d0 : DistributedFS, d0 = d →
      NodesWF d0.nodes ∧ Invariant d0 ∧ d0.nodes.length = d.nodes.length := by
    rintro d0 rfl
    exact ⟨hwf, hinv, rfl⟩
  cases hm : mapGet d.metadata f with
  | none =>
    simp only [reReplicateFile, hm, Option.some.injEq] at h
    exact hbase d1 h.symm
  | some ids =>
    have hids_mem : (f, ids) ∈ d.metadata := mem_of_mapGet_some hm
    have hids_nodup : ids.Nodup := (hinv (f, ids) hids_mem).1
    simp only [reReplicateFile, hm] at h
    rcases Option.bind_eq_some.mp h with ⟨a, hcnt, h2⟩
    by_cases hge : REPLICATION ≤ a
    · rw [if_pos hge] at h2
      exact hbase d1 (by simpa using h2.symm)
    · rw [if_neg hge] at h2
      rcases Option.bind_eq_some.mp h2 with ⟨srcOpt, hfs, h3⟩
      cases srcOpt with
      | none => exact hbase d1 (by simpa using h3.symm)
      | some srcId =>
        rcases Option.bind_eq_some.mp h3 with ⟨r, hr, h4⟩
        have hskel1 : skeletonOf r.1 = skeletonOf d.nodes :=
          restoreLoop_skel ids d.nodes a r hr
        have hwf1 : NodesWF r.1 := nodesWF_of_skeletonOf_eq hskel1 hwf
        have hlen1 : r.1.length = d.nodes.length := length_of_skeletonOf_eq hskel1
        by_cases hok : r.2.2 = true
        · rw [if_pos hok] at h4
          by_cases hlt : r.2.1 < REPLICATION
          · rw [if_pos hlt] at h4
            rcases Option.bind_eq_some.mp h4 with ⟨g0, hg, h5⟩
            have hskel2 : skeletonOf g0.1 = skeletonOf d.nodes := by
              have := growthLoop_skel r.1 [] ids r.2.1 g0 hg
              rw [this]
              simpa using hskel1
            have hwf2 : NodesWF g0.1 := nodesWF_of_skeletonOf_eq hskel2 hwf
            have hlen2 : g0.1.length = d.nodes.length := length_of_skeletonOf_eq hskel2
            obtain ⟨app, happ, hadn, hprops⟩ := growthLoop_cur r.1 [] ids r.2.1 g0 hg
            have hnewrec : (ids ++ app).Nodup ∧ IdsInRange d.nodes.length (ids ++ app) := by
              constructor
              · rw [List.nodup_append]
                refine ⟨hids_nodup, hadn, ?_⟩
                intro x hx hx2
                exact (hprops x hx2).1 hx
              · intro x hx
                rcases List.mem_append.mp hx with h6 | h6
                · exact (hinv (f, ids) hids_mem).2 x h6
                · obtain ⟨_, m, hm, hxm⟩ := (hprops x h6)
                  subst hxm
                  have := wf_mem_id_range hwf1 hm
                  rw [hlen1] at this
                  exact this
            have hinv2 : Invariant { d with
                nodes := g0.1, metadata := mapSet d.metadata f g0.2.1 } := by
              intro p hp
              rcases mem_mapSet hp with h6 | h6
              · have := hinv p h6
                refine ⟨this.1, ?_⟩
                intro x hx
                rw [hlen2]
                exact this.2 x hx
              · subst h6
                rw [happ]
                refine ⟨hnewrec.1, ?_⟩
                intro x hx
                rw [hlen2]
                exact hnewrec.2 x hx
            by_cases hok2 : g0.2.2.2 = true
            · rw [if_pos hok2] at h5
              have hd1 : d1 = saveMetadata { d with
                  nodes := g0.1, metadata := mapSet d.metadata f g0.2.1 } := by
                simpa using h5.symm
              rw [hd1]
              exact ⟨hwf2, hinv2, hlen2⟩
            · rw [if_neg hok2] at h5
              have hd1 : d1 = { d with
                  nodes := g0.1, metadata := mapSet d.metadata f g0.2.1 } := by
                simpa using h5.symm
              rw [hd1]
              exact ⟨hwf2, hinv2, hlen2⟩
          · rw [if_neg hlt] at h4
            have hd1 : d1 = saveMetadata { d with nodes := r.1 } := by simpa using h4.symm
            rw [hd1]
            refine ⟨hwf1, ?_, hlen1⟩
            intro p hp
            have := hinv p hp
            refine ⟨this.1, ?_⟩
            intro x hx
            rw [show (saveMetadata { d with nodes := r.1 }).nodes.length = d.nodes.length
              from hlen1]
            exact this.2 x hx
        · rw [if_neg hok] at h4
          have hd1 : d1 = { d with nodes := r.1 } := by simpa using h4.symm
          rw [hd1]
          refine ⟨hwf1, ?_, hlen1⟩
          intro p hp
          have := hinv p hp
          refine ⟨this.1, ?_⟩
          intro x hx
          rw [show ({ d with nodes := r.1 } : DistributedFS).nodes.length = d.nodes.length
            from hlen1]
          exact this.2 x hx

theorem IdsInRange_of_length_eq {a b : Nat} (h : a = b) {ids : List Int}
    (hr : IdsInRange b ids) : IdsInRange a ids := by
  rw [h]
  exact hr

theorem checkOne_invariant {d : DistributedFS} {k : String} {r : DistributedFS × Bool}
    (h : checkOne d k = some r) (hwf : NodesWF d.nodes) (hinv : Invariant d) :
    NodesWF r.1.nodes ∧ Invariant r.1 ∧ r.1.nodes.length = d.nodes.length := by
  cases hm : mapGet d.metadata k with
  | none =>
    simp only [checkOne, hm, Option.some.injEq] at h
    rw [← h]
    exact ⟨hwf, hinv, rfl⟩
  | some ids =>
    simp only [checkOne, hm] at h
    rcases Option.bind_eq_some.mp h with ⟨a, hcnt, h2⟩
    by_cases hlt : a < 2
    · rw [if_pos hlt] at h2
      rcases Option.bind_eq_some.mp h2 with ⟨d1, hrr, h3⟩
      have hr : r = (d1, true) := by simpa using h3.symm
      rw [hr]
      exact reRep_invariant hrr hwf hinv
    · rw [if_neg hlt] at h2
      have hr : r = (d, false) := by simpa using h2.symm
      rw [hr]
      exact ⟨hwf, hinv, rfl⟩

theorem healthLoop_invariant :
    ∀ (ks : List String) (d : DistributedFS) (acc : List String)
      (d2 : DistributedFS) (w : List String),
    healthLoop d acc ks = some (d2, w) → NodesWF d.nodes → Invariant d →
    NodesWF d2.nodes ∧ Invariant d2 ∧ d2.nodes.length = d.nodes.length := by
  intro ks
  induction ks with
  | nil =>
    intro d acc d2 w h hwf hinv
    have : d2 = d := by
      have h2 : (d, acc) = (d2, w) := by simpa [healthLoop] using h
      simpa using (congrArg Prod.fst h2).symm
    rw [this]
    exact ⟨hwf, hinv, rfl⟩
  | cons k rest ih =>
    intro d acc d2 w h hwf hinv
    simp only [healthLoop] at h
    rcases Option.bind_eq_some.mp h with ⟨r, hco, h2⟩
    obtain ⟨hwf1, hinv1, hlen1⟩ := checkOne_invariant hco hwf hinv
    obtain ⟨hwf2, hinv2, hlen2⟩ := ih r.1 _ d2 w h2 hwf1 hinv1
    exact ⟨hwf2, hinv2, by rw [hlen2, hlen1]⟩

theorem deleteLoop_skel {f : String} {failIds : List Int} :
    ∀ (ids : List Int) (nodes : List Node) (r : List Node × Bool),
    deleteLoop f failIds nodes ids = some r → skeletonOf r.1 = skeletonOf nodes := by
  intro ids
  induction ids with
  | nil =>
    intro nodes r h
    have : r = (nodes, true) := by simpa [deleteLoop] using h.symm
    rw [this]
  | cons id rest ih =>
    intro nodes r h
    cases hn : getNode? nodes id with
    | none =>
      exfalso
      simp only [deleteLoop, hn] at h
      cases h
    | some n =>
      by_cases hfail : id ∈ failIds
      · rw [deleteLoop_cons_throw hn hfail rest] at h
        have : r = (nodes, false) := by simpa using h.symm
        rw [this]
      · rw [deleteLoop_cons_step hn hfail rest] at h
        have hstep := ih _ r h
        rw [hstep]
        have h1 : 1 ≤ id := (range_of_getNode?_some hn).1
        have h2 : nthNode nodes (id - 1).toNat = some n := by
          rw [getNode?_eq_nthNode h1] at hn
          exact hn
        exact skeletonOf_setNth h2 rfl rfl

theorem deleteFile_invariant {d : DistributedFS} {f : String} {failIds : List Int}
    {d1 : DistributedFS} {o : DeleteOutcome}
    (h : deleteFile d f failIds = some (d1, o)) (hwf : NodesWF d.nodes) (hinv : Invariant d) :
    NodesWF d1.nodes ∧ Invariant d1 := by
  cases hm : mapGet d.metadata f with
  | none =>
    simp only [deleteFile, hm, Option.some.injEq] at h
    have : d1 = d := by simpa using (congrArg Prod.fst h).symm
    rw [this]
    exact ⟨hwf, hinv⟩
  | some ids =>
    simp only [deleteFile, hm] at h
    rcases Option.bind_eq_some.mp h with ⟨r, hdl, h2⟩
    have hskel : skeletonOf r.1 = skeletonOf d.nodes := deleteLoop_skel ids d.nodes r hdl
    have hwf1 : NodesWF r.1 := nodesWF_of_skeletonOf_eq hskel hwf
    have hlen : r.1.length = d.nodes.length := length_of_skeletonOf_eq hskel
    by_cases hb : r.2
    · rw [if_pos hb] at h2
      have hd1 : d1 = saveMetadata { d with
          nodes := r.1, metadata := mapErase d.metadata f } := by
        simpa using (congrArg Prod.fst (Option.some.inj h2)).symm
      rw [hd1]
      refine ⟨hwf1, ?_⟩
      intro p hp
      have := hinv p (mem_mapErase hp)
      refine ⟨this.1, ?_⟩
      intro x hx
      rw [show (saveMetadata { d with nodes := r.1, metadata := mapErase d.metadata f }).nodes.length = d.nodes.length from hlen]
      exact this.2 x hx
    · rw [if_neg hb] at h2
      have hd1 : d1 = { d with nodes := r.1 } := by
        simpa using (congrArg Prod.fst (Option.some.inj h2)).symm
      rw [hd1]
      refine ⟨hwf1, ?_⟩
      intro p hp
      have := hinv p hp
      refine ⟨this.1, ?_⟩
      intro x hx
      rw [show ({ d with nodes := r.1 } : DistributedFS).nodes.length = d.nodes.length
        from hlen]
      exact this.2 x hx

theorem upload_invariant {d : DistributedFS} {f : String} {src : Option String}
    {d1 : DistributedFS} {o : UploadOutcome}
    (h : upload d f src = (d1, o)) (hwf : NodesWF d.nodes) (hinv : Invariant d) :
    NodesWF d1.nodes ∧ Invariant d1 := by
  cases src with
  | none =>
    have : d1 = d := by simpa using (congrArg Prod.fst h).symm
    rw [this]
    exact ⟨hwf, hinv⟩
  | some c =>
    obtain ⟨h1, h2, h3⟩ := uploadLoop_spec f c d.nodes 0 [] (by unfold REPLICATION; omega)
    have hwfr : NodesWF (uploadLoop f c d.nodes 0 []).1 := nodesWF_of_skeletonOf_eq h3 hwf
    have hlenr : (uploadLoop f c d.nodes 0 []).1.length = d.nodes.length :=
      length_of_skeletonOf_eq h3
    by_cases hlt : (uploadLoop f c d.nodes 0 []).2.2 < REPLICATION
    · have hd1 : d1 = { d with nodes := (uploadLoop f c d.nodes 0 []).1 } := by
        have heq : upload d f (some c) =
            ({ d with nodes := (uploadLoop f c d.nodes 0 []).1 },
              UploadOutcome.insufficientNodes) := by
          simp only [upload]
          rw [if_pos hlt]
        rw [heq] at h
        simpa using (congrArg Prod.fst h).symm
      rw [hd1]
      refine ⟨hwfr, ?_⟩
      intro p hp
      have := hinv p hp
      refine ⟨this.1, ?_⟩
      intro x hx
      rw [show ({ d with nodes := (uploadLoop f c d.nodes 0 []).1 } : DistributedFS).nodes.length = d.nodes.length from hlenr]
      exact this.2 x hx
    · have hd1 : d1 = saveMetadata { d with
          nodes := (uploadLoop f c d.nodes 0 []).1,
          metadata := mapSet d.metadata f (uploadLoop f c d.nodes 0 []).2.1 } := by
        have heq : upload d f (some c) =
            (saveMetadata { d with
              nodes := (uploadLoop f c d.nodes 0 []).1,
              metadata := mapSet d.metadata f (uploadLoop f c d.nodes 0 []).2.1 },
              UploadOutcome.ok) := by
          simp only [upload]
          rw [if_neg hlt]
        rw [heq] at h
        simpa using (congrArg Prod.fst h).symm
      have hused : (uploadLoop f c d.nodes 0 []).2.1 = firstActiveIds d.nodes := by
        rw [h1, Nat.sub_zero]
        unfold firstActiveIds
        simp
      rw [hd1]
      refine ⟨hwfr, ?_⟩
      intro p hp
      rcases mem_mapSet hp with h6 | h6
      · have := hinv p h6
        refine ⟨this.1, ?_⟩
        intro x hx
        rw [show (saveMetadata { d with nodes := (uploadLoop f c d.nodes 0 []).1, metadata := mapSet d.metadata f (uploadLoop f c d.nodes 0 []).2.1 }).nodes.length = d.nodes.length from hlenr]
        exact this.2 x hx
      · subst h6
        rw [hused]
        refine ⟨firstActiveIds_nodup hwf, ?_⟩
        apply IdsInRange_of_length_eq (show (saveMetadata { d with nodes := (uploadLoop f c d.nodes 0 []).1, metadata := mapSet d.metadata f (uploadLoop f c d.nodes 0 []).2.1 }).nodes.length = d.nodes.length from hlenr)
        intro x hx
        unfold firstActiveIds at hx
        obtain ⟨n, hn, hxn⟩ := List.mem_map.mp hx
        have hn2 : n ∈ d.nodes :=
          List.Sublist.mem hn (List.Sublist.trans (List.take_sublist _ _)
            (List.filter_sublist _))
        subst hxn
        exact wf_mem_id_range hwf hn2

theorem toggle_invariant {d : DistributedFS} (id : Int) (b : Bool)
    (hwf : NodesWF d.nodes) (hinv : Invariant d) :
    NodesWF (setNodeActive d.nodes id b) ∧
    Invariant { d with nodes := setNodeActive d.nodes id b } := by
  refine ⟨nodesWF_setNodeActive hwf id b, ?_⟩
  intro p hp
  have := hinv p hp
  exact ⟨this.1, IdsInRange_of_length_eq (length_setNodeActive d.nodes id b) this.2⟩

theorem failNode_invariant {d : DistributedFS} {id : Int} {d1 : DistributedFS}
    {o : NodeOpOutcome} (h : failNode d id = some (d1, o))
    (hwf : NodesWF d.nodes) (hinv : Invariant d) :
    NodesWF d1.nodes ∧ Invariant d1 := by
  by_cases hguard : id < 1 ∨ (d.nodes.length : Int) < id
  · simp only [failNode] at h
    rw [if_pos hguard] at h
    have : d1 = d := by simpa using (congrArg Prod.fst (Option.some.inj h)).symm
    rw [this]
    exact ⟨hwf, hinv⟩
  · simp only [failNode] at h
    rw [if_neg hguard] at h
    rcases Option.bind_eq_some.mp h with ⟨r, hchk, h2⟩
    have hd1 : d1 = r.1 := by simpa using (congrArg Prod.fst (Option.some.inj h2)).symm
    obtain ⟨hwf1, hinv1⟩ := toggle_invariant id false hwf hinv
    obtain ⟨r1, r2⟩ := r
    obtain ⟨hwf2, hinv2, _⟩ := healthLoop_invariant
      (mapKeys ({ d with nodes := setNodeActive d.nodes id false } : DistributedFS).metadata)
      { d with nodes := setNodeActive d.nodes id false } [] r1 r2 hchk hwf1 hinv1
    rw [hd1]
    exact ⟨hwf2, hinv2⟩

theorem recoverNode_invariant {d : DistributedFS} {id : Int} {d1 : DistributedFS}
    {o : NodeOpOutcome} (h : recoverNode d id = some (d1, o))
    (hwf : NodesWF d.nodes) (hinv : Invariant d) :
    NodesWF d1.nodes ∧ Invariant d1 := by
  by_cases hguard : id < 1 ∨ (d.nodes.length : Int) < id
  · simp only [recoverNode] at h
    rw [if_pos hguard] at h
    have : d1 = d := by simpa using (congrArg Prod.fst (Option.some.inj h)).symm
    rw [this]
    exact ⟨hwf, hinv⟩
  · simp only [recoverNode] at h
    rw [if_neg hguard] at h
    rcases Option.bind_eq_some.mp h with ⟨r, hchk, h2⟩
    have hd1 : d1 = r.1 := by simpa using (congrArg Prod.fst (Option.some.inj h2)).symm
    obtain ⟨hwf1, hinv1⟩ := toggle_invariant id true hwf hinv
    obtain ⟨r1, r2⟩ := r
    obtain ⟨hwf2, hinv2, _⟩ := healthLoop_invariant
      (mapKeys ({ d with nodes := setNodeActive d.nodes id true } : DistributedFS).metadata)
      { d with nodes := setNodeActive d.nodes id true } [] r1 r2 hchk hwf1 hinv1
    rw [hd1]
    exact ⟨hwf2, hinv2⟩

/-- Claim C9: every engine operation preserves the invariant that each file
record's `replicaNodes` is a duplicate-free sequence of node ids referring
to existing pool nodes (`1..N`).  `download` never mutates the state, and
`upload`, `deleteFile`, `reReplicateFile`, `failNode` and `recoverNode` all
preserve the invariant (together with pool well-formedness). -/
theorem C9_invariant_preservation (d : DistributedFS)
    (hwf : NodesWF d.nodes) (hinv : Invariant d) :
    (∀ f src d1 o, upload d f src = (d1, o) → NodesWF d1.nodes ∧ Invariant d1) ∧
    (∀ f failIds d1 o, deleteFile d f failIds = some (d1, o) →
      NodesWF d1.nodes ∧ Invariant d1) ∧
    (∀ f d1, reReplicateFile d f = some d1 → NodesWF d1.nodes ∧ Invariant d1) ∧
    (∀ id d1 o, failNode d id = some (d1, o) → NodesWF d1.nodes ∧ Invariant d1) ∧
    (∀ id d1 o, recoverNode d id = some (d1, o) → NodesWF d1.nodes ∧ Invariant d1) := by
  refine ⟨?_, ?_, ?_, ?_, ?_⟩
  · intro f src d1 o h
    exact upload_invariant h hwf hinv
  · intro f failIds d1 o h
    exact deleteFile_invariant h hwf hinv
  · intro f d1 h
    obtain ⟨hwf1, hinv1, _⟩ := reRep_invariant h hwf hinv
    exact ⟨hwf1, hinv1⟩
  · intro id d1 o h
    exact failNode_invariant h hwf hinv
  · intro id d1 o h
    exact recoverNode_invariant h hwf hinv

/-- Witness for C9: the upload conjunct applied at the concrete state `dC2`
with its computed result. -/
theorem C9_invariant_preservation_witness :
    NodesWF (upload dC2 "h" (some "z")).1.nodes ∧ Invariant (upload dC2 "h" (some "z")).1 :=
  (C9_invariant_preservation dC2 (by decide) (by decide)).1 "h" (some "z")
    (upload dC2 "h" (some "z")).1 (upload dC2 "h" (some "z")).2 rfl

/-! ## C10: bounds safety of the node-array accesses -/

theorem downloadLoop_total (nodes : List Node) (f : String) :
    ∀ ids, IdsInRange nodes.length ids → downloadLoop nodes f ids ≠ none := by
  intro ids
  induction ids with
  | nil => intro _ h; cases h
  | cons id rest ih =>
    intro hrange
    obtain ⟨n, hn⟩ := getNode?_some_of_range (hrange id (by simp)).1 (hrange id (by simp)).2
    by_cases hb : n.active
    · cases hc : blobGet n.storage f with
      | none => rw [downloadLoop_cons_io hn hb hc rest]; intro h2; cases h2
      | some c => rw [downloadLoop_cons_hit hn hb hc rest]; intro h2; cases h2
    · have hbf : n.active = false := by simpa using hb
      rw [downloadLoop_cons_inactive hn hbf rest]
      exact ih (fun i hi => hrange i (List.mem_cons_of_mem _ hi))

theorem deleteLoop_total (f : String) (failIds : List Int) :
    ∀ (ids : List Int) (nodes : List Node), IdsInRange nodes.length ids →
    ∃ r, deleteLoop f failIds nodes ids = some r := by
  intro ids
  induction ids with
  | nil => intro nodes _; exact ⟨_, rfl⟩
  | cons id rest ih =>
    intro nodes hrange
    obtain ⟨n, hn⟩ := getNode?_some_of_range (hrange id (by simp)).1 (hrange id (by simp)).2
    by_cases hfail : id ∈ failIds
    · exact ⟨_, deleteLoop_cons_throw hn hfail rest⟩
    · have hlen : (setNodeAt nodes id { n with storage := blobRemove n.storage f }).length =
          nodes.length := length_setNodeAt nodes id _
      obtain ⟨r, hr⟩ := ih (setNodeAt nodes id { n with storage := blobRemove n.storage f })
        (fun i hi => by rw [hlen]; exact hrange i (List.mem_cons_of_mem _ hi))
      refine ⟨r, ?_⟩
      rw [deleteLoop_cons_step hn hfail rest]
      exact hr

/-- Claim C10: under the precondition that every node id stored in the
metadata lies in `1..N`, none of the engine operations that index the pool
(`download`, `deleteFile`, `checkReplicaHealth`, `reReplicateFile`) ever
performs an out-of-bounds `nodes[id - 1]` access (in this model, none of
them returns `none`); and `loadMetadata` itself performs no range
validation: parsing `f:99,` yields a record with id `99` no matter how
small the pool is (the pool does not even occur in its type). -/
theorem C10_index_safety (d : DistributedFS) (f : String)
    (hrange : ∀ p ∈ d.metadata, IdsInRange d.nodes.length p.2)
    (hkeys : (mapKeys d.metadata).Nodup) :
    download d f ≠ none ∧
    (∀ failIds, deleteFile d f failIds ≠ none) ∧
    reReplicateFile d f ≠ none ∧
    checkReplicaHealth d ≠ none ∧
    loadMetadata (some ("f:99,\n".data)) = [("f", [99])] := by
  have hrec_range : ∀ ids, mapGet d.metadata f = some ids →
      IdsInRange d.nodes.length ids :=
    fun ids h => hrange (f, ids) (mem_of_mapGet_some h)
  refine ⟨?_, ?_, ?_, ?_, by decide⟩
  · cases hm : mapGet d.metadata f with
    | none => simp only [download, hm]; intro h2; cases h2
    | some ids =>
      have : download d f = downloadLoop d.nodes f ids := by simp only [download, hm]
      rw [this]
      exact downloadLoop_total d.nodes f ids (hrec_range ids hm)
  · intro failIds
    cases hm : mapGet d.metadata f with
    | none => simp only [deleteFile, hm]; intro h2; cases h2
    | some ids =>
      obtain ⟨r, hr⟩ := deleteLoop_total f failIds ids d.nodes (hrec_range ids hm)
      simp only [deleteFile, hm, hr, option_some_bind]
      by_cases hb : r.2
      · rw [if_pos hb]; intro h2; cases h2
      · rw [if_neg hb]; intro h2; cases h2
  · obtain ⟨d1, hd1, _⟩ := reRep_total_frame d f hrec_range
    rw [hd1]
    intro h2
    cases h2
  · have hrecs : ∀ g ∈ mapKeys d.metadata, ∃ ids,
        mapGet d.metadata g = some ids ∧ IdsInRange d.nodes.length ids := by
      intro g hg
      obtain ⟨ids, hget⟩ := mapGet_some_of_mem_keys hg
      exact ⟨ids, hget, hrange (g, ids) (mem_of_mapGet_some hget)⟩
    obtain ⟨d2, hloop, _⟩ := healthLoop_spec (mapKeys d.metadata) d [] hkeys hrecs
    have : checkReplicaHealth d = healthLoop d [] (mapKeys d.metadata) := rfl
    rw [this, hloop]
    intro h2
    cases h2

/-- Witness for C10 at the concrete state `dC2`. -/
theorem C10_index_safety_witness :
    download dC2 "f" ≠ none ∧
    (∀ failIds, deleteFile dC2 "f" failIds ≠ none) ∧
    reReplicateFile dC2 "f" ≠ none ∧
    checkReplicaHealth dC2 ≠ none ∧
    loadMetadata (some ("f:99,\n".data)) = [("f", [99])] :=
  C10_index_safety dC2 "f" (by decide) (by decide)

/-! ### C5: persistence round trip -/

/-- `takeWhile` over a run of satisfying characters stops exactly at the
first failing character. -/

theorem takeWhile_append_stop (p : Char → Bool) (xs ys : List Char) (y : Char)
    (hxs : ∀ c ∈ xs, p c = true) (hy : p y = false) :
    List.takeWhile p (xs ++ y :: ys) = xs := by
  induction xs with
  | nil => simp [List.takeWhile_cons, hy]
  | cons c cs ih =>
    have hc : p c = true := hxs c (by simp)
    simp only [List.cons_append, List.takeWhile_cons, hc, if_true]
    rw [ih (fun d hd => hxs d (by simp [hd]))]

theorem dropWhile_append_stop (p : Char → Bool) (xs ys : List Char) (y : Char)
    (hxs : ∀ c ∈ xs, p c = true) (hy : p y = false) :
    List.dropWhile p (xs ++ y :: ys) = y :: ys := by
  induction xs with
  | nil => simp [List.dropWhile_cons, hy]
  | cons c cs ih =>
    have hc : p c = true := hxs c (by simp)
    simp only [List.cons_append, List.dropWhile_cons, hc, if_true]
    exact ih (fun d hd => hxs d (by simp [hd]))

theorem takeWhile_eq_self_of_all (p : Char → Bool) (xs : List Char)
    (hxs : ∀ c ∈ xs, p c = true) :
    List.takeWhile p xs = xs := by
  induction xs with
  | nil => rfl
  | cons c cs ih =>
    have hc : p c = true := hxs c (by simp)
    simp only [List.takeWhile_cons, hc, if_true]
    rw [ih (fun d hd => hxs d (by simp [hd]))]

theorem splitOnChar_append (delim : Char) (xs ys : List Char)
    (h : ∀ c ∈ xs, ¬(c = delim)) :
    splitOnChar delim (xs ++ delim :: ys) = xs :: splitOnChar delim ys := by
  induction xs with
  | nil => simp [splitOnChar]
  | cons c cs ih =>
    have hc : ¬(c = delim) := h c (by simp)
    have ih2 := ih (fun d hd => h d (by simp [hd]))
    simp only [List.cons_append, splitOnChar, if_neg hc]
    have ih3 : splitOnChar delim (List.append cs (delim :: ys)) = cs :: splitOnChar delim ys := ih2
    rw [ih3]

theorem getlineSegments_of_split (delim : Char) (cs : List Char) (l : List (List Char))
    (h : splitOnChar delim cs = l ++ [[]]) :
    getlineSegments delim cs = l := by
  simp only [getlineSegments, h, List.getLast?_concat, List.dropLast_concat]

theorem digitChar_isDigit (d : Nat) : (digitChar d).isDigit = true := by
  rcases d with _|_|_|_|_|_|_|_|_|d <;> rfl

theorem isDigit_ne (c ch : Char) (hc : c.isDigit = true) (hch : ch.isDigit = false) :
    ¬(c = ch) := by
  intro e
  rw [e, hch] at hc
  cases hc

theorem digitChar_toNat (d : Nat) (h : d < 10) : (digitChar d).toNat - 48 = d := by
  interval_cases d <;> rfl

theorem natDigitsAux_digits : ∀ (fuel n : Nat), ∀ c ∈ natDigitsAux fuel n, c.isDigit = true := by
  intro fuel
  induction fuel with
  | zero =>
    intro n c hc
    cases n <;> simp [natDigitsAux] at hc
  | succ fuel ih =>
    intro n c hc
    cases n with
    | zero => simp [natDigitsAux] at hc
    | succ m =>
      rw [show natDigitsAux (fuel + 1) (m + 1)
            = digitChar ((m + 1) % 10) :: natDigitsAux fuel ((m + 1) / 10) from rfl] at hc
      rcases List.mem_cons.mp hc with h | h
      · rw [h]; exact digitChar_isDigit _
      · exact ih _ c h

theorem natDigitsAux_ne_nil (fuel n : Nat) (hf : fuel ≠ 0) (hn : n ≠ 0) :
    natDigitsAux fuel n ≠ [] := by
  cases fuel with
  | zero => cases hf rfl
  | succ f =>
    cases n with
    | zero => cases hn rfl
    | succ m => simp [natDigitsAux]

theorem natChars_digits (n : Nat) : ∀ c ∈ natChars n, c.isDigit = true := by
  intro c hc
  unfold natChars at hc
  by_cases h : n = 0
  · rw [if_pos h] at hc
    simp at hc
    rw [hc]; rfl
  · rw [if_neg h] at hc
    exact natDigitsAux_digits n n c (List.mem_reverse.mp hc)

theorem natChars_ne_nil (n : Nat) : natChars n ≠ [] := by
  unfold natChars
  by_cases h : n = 0
  · rw [if_pos h]; simp
  · rw [if_neg h]
    intro e
    exact natDigitsAux_ne_nil n n h h (List.reverse_eq_nil_iff.mp e)

theorem intChars_chars (i : Int) : ∀ c ∈ intChars i, c.isDigit = true ∨ c = '-' := by
  intro c hc
  unfold intChars at hc
  by_cases h : i < 0
  · rw [if_pos h] at hc
    rcases List.mem_cons.mp hc with h1 | h1
    · right; exact h1
    · left; exact natChars_digits _ c h1
  · rw [if_neg h] at hc
    left; exact natChars_digits _ c hc

theorem intChars_ne_nil (i : Int) : intChars i ≠ [] := by
  unfold intChars
  by_cases h : i < 0
  · rw [if_pos h]; simp
  · rw [if_neg h]; exact natChars_ne_nil _

theorem idListChars_chars (ids : List Int) :
    ∀ c ∈ idListChars ids, c.isDigit = true ∨ c = '-' ∨ c = ',' := by
  induction ids with
  | nil =>
    intro c hc
    simp [idListChars] at hc
  | cons i rest ih =>
    intro c hc
    simp only [idListChars, List.append_assoc, List.cons_append, List.nil_append,
      List.mem_append, List.mem_cons] at hc
    rcases hc with h | h | h
    · rcases intChars_chars i c h with h1 | h1
      · exact Or.inl h1
      · exact Or.inr (Or.inl h1)
    · exact Or.inr (Or.inr h)
    · exact ih c h

theorem recordChars_no_newline (p : String × List Int) (h : goodKey p.1) :
    ∀ c ∈ recordChars p, ¬(c = '\n') := by
  intro c hc
  simp only [recordChars, List.append_assoc, List.cons_append, List.nil_append,
    List.mem_append, List.mem_cons] at hc
  rcases hc with h1 | h1 | h1
  · exact (h c h1).2
  · rw [h1]; decide
  · rcases idListChars_chars p.2 c h1 with h2 | h2 | h2
    · exact isDigit_ne c _ h2 (by decide)
    · rw [h2]; decide
    · rw [h2]; decide

theorem splitOnChar_serialize (m : List (String × List Int))
    (h : ∀ p ∈ m, goodKey p.1) :
    splitOnChar '\n' (serializeMetadata m) = m.map recordChars ++ [[]] := by
  induction m with
  | nil => rfl
  | cons p rest ih =>
    have h1 : ∀ c ∈ recordChars p, ¬(c = '\n') :=
      recordChars_no_newline p (h p (by simp))
    have h2 : serializeMetadata (p :: rest) = recordChars p ++ '\n' :: serializeMetadata rest := by
      simp [serializeMetadata]
    rw [h2, splitOnChar_append _ _ _ h1, ih (fun q hq => h q (by simp [hq]))]
    rfl

theorem intChars_ne_comma (i : Int) : ∀ c ∈ intChars i, ¬(c = ',') := by
  intro c hc
  rcases intChars_chars i c hc with h | h
  · exact isDigit_ne c ',' h (by decide)
  · rw [h]; decide

theorem splitOnChar_idList (ids : List Int) :
    splitOnChar ',' (idListChars ids) = ids.map intChars ++ [[]] := by
  induction ids with
  | nil => rfl
  | cons i rest ih =>
    have h2 : idListChars (i :: rest) = intChars i ++ ',' :: idListChars rest := by
      simp [idListChars]
    rw [h2, splitOnChar_append _ _ _ (intChars_ne_comma i), ih]
    rfl

theorem getlineSegments_idList (ids : List Int) :
    getlineSegments ',' (idListChars ids) = ids.map intChars :=
  getlineSegments_of_split ',' _ _ (splitOnChar_idList ids)

theorem splitAtColon_record (k : String) (ids : List Int) (hk : goodKey k) :
    splitAtColon (recordChars (k, ids)) = some (k.data, idListChars ids) := by
  have hshape : recordChars (k, ids) = k.data ++ ':' :: idListChars ids := by
    simp [recordChars]
  have hany : (recordChars (k, ids)).any (fun c => c = ':') = true := by
    apply List.any_eq_true.mpr
    refine ⟨':', ?_, by decide⟩
    rw [hshape]
    simp
  have ht : (recordChars (k, ids)).takeWhile (fun c => ¬(c = ':')) = k.data := by
    rw [hshape]
    exact takeWhile_append_stop _ _ _ _ (fun c hc => by simp [(hk c hc).1]) (by decide)
  have hd : (recordChars (k, ids)).dropWhile (fun c => ¬(c = ':')) = ':' :: idListChars ids := by
    rw [hshape]
    exact dropWhile_append_stop _ _ _ _ (fun c hc => by simp [(hk c hc).1]) (by decide)
  unfold splitAtColon
  rw [if_pos hany, ht, hd]
  rfl

theorem foldl_digitsAux : ∀ (fuel n acc : Nat), n ≤ fuel →
    (natDigitsAux fuel n).reverse.foldl (fun a c => a * 10 + (c.toNat - 48)) acc =
      acc * 10 ^ (natDigitsAux fuel n).length + n := by
  intro fuel
  induction fuel with
  | zero =>
    intro n acc h
    have hn : n = 0 := Nat.le_zero.mp h
    subst hn
    simp [natDigitsAux]
  | succ fuel ih =>
    intro n acc h
    cases n with
    | zero => simp [natDigitsAux]
    | succ m =>
      have hle : (m + 1) / 10 ≤ fuel := by omega
      rw [show natDigitsAux (fuel + 1) (m + 1)
            = digitChar ((m + 1) % 10) :: natDigitsAux fuel ((m + 1) / 10) from rfl]
      rw [List.reverse_cons, List.foldl_append, ih ((m + 1) / 10) acc hle]
      simp only [List.foldl_cons, List.foldl_nil, List.length_cons, pow_succ]
      rw [digitChar_toNat ((m + 1) % 10) (Nat.mod_lt _ (by norm_num))]
      have hdm : 10 * ((m + 1) / 10) + (m + 1) % 10 = m + 1 := Nat.div_add_mod (m + 1) 10
      have expand : (acc * 10 ^ (natDigitsAux fuel ((m + 1) / 10)).length + (m + 1) / 10) * 10
            + (m + 1) % 10
          = acc * (10 ^ (natDigitsAux fuel ((m + 1) / 10)).length * 10)
            + (10 * ((m + 1) / 10) + (m + 1) % 10) := by ring
      rw [expand, hdm]

theorem parseDigits_of_digits (l : List Char) (hl : l ≠ [])
    (hd : ∀ c ∈ l, c.isDigit = true) :
    parseDigits l = some (l.foldl (fun a c => a * 10 + (c.toNat - 48)) 0) := by
  cases l with
  | nil => cases hl rfl
  | cons a t =>
    simp only [parseDigits]
    rw [takeWhile_eq_self_of_all _ _ hd]
    simp

theorem parseDigits_natChars (n : Nat) : parseDigits (natChars n) = some n := by
  by_cases h : n = 0
  · subst h; rfl
  · have hrw : natChars n = (natDigitsAux n n).reverse := by rw [natChars, if_neg h]
    have hne : (natDigitsAux n n).reverse ≠ [] := fun e =>
      natDigitsAux_ne_nil n n h h (List.reverse_eq_nil_iff.mp e)
    have hdig : ∀ c ∈ (natDigitsAux n n).reverse, c.isDigit = true := fun c hc =>
      natDigitsAux_digits n n c (List.mem_reverse.mp hc)
    rw [hrw, parseDigits_of_digits _ hne hdig, foldl_digitsAux n n 0 (le_refl n)]
    simp

theorem isDigit_not_ws (c : Char) (hc : c.isDigit = true) : c.isWhitespace = false := by
  revert hc
  simp only [Char.isDigit, Char.isWhitespace]
  intro hc
  simp only [Bool.and_eq_true, decide_eq_true_eq] at hc
  simp only [Bool.or_eq_false_iff, decide_eq_false_iff_not]
  refine ⟨⟨⟨?_, ?_⟩, ?_⟩, ?_⟩ <;> intro e <;> subst e <;> revert hc <;> decide

theorem stoiChars_neg_cons (rest : List Char) :
    stoiChars ('-' :: rest) = (parseDigits rest).map (fun n => -(n : Int)) := by
  have hdw : List.dropWhile (fun c => c.isWhitespace) ('-' :: rest) = '-' :: rest := by
    rw [List.dropWhile_cons, if_neg (by decide)]
  simp only [stoiChars, hdw]
  simp

theorem stoiChars_digits (l : List Char) (hne : l ≠ [])
    (hd : ∀ c ∈ l, c.isDigit = true) :
    stoiChars l = (parseDigits l).map (fun n => (n : Int)) := by
  cases l with
  | nil => cases hne rfl
  | cons c rest =>
    have hc := hd c (by simp)
    have hws : c.isWhitespace = false := isDigit_not_ws c hc
    have hdw : List.dropWhile (fun x => x.isWhitespace) (c :: rest) = c :: rest := by
      rw [List.dropWhile_cons, if_neg (by simp [hws])]
    have hm : ¬(c = '-') := isDigit_ne c '-' hc (by decide)
    have hp : ¬(c = '+') := isDigit_ne c '+' hc (by decide)
    simp only [stoiChars, hdw]
    rw [if_neg hm, if_neg hp]

theorem stoiChars_intChars (i : Int) : stoiChars (intChars i) = some i := by
  by_cases h : i < 0
  · rw [intChars, if_pos h, stoiChars_neg_cons, parseDigits_natChars]
    refine congrArg some ?_
    show -(↑i.natAbs : Int) = i
    omega
  · rw [intChars, if_neg h,
      stoiChars_digits _ (natChars_ne_nil _) (natChars_digits _), parseDigits_natChars]
    refine congrArg some ?_
    show (↑i.toNat : Int) = i
    omega

theorem parseNodeList_map_intChars (ids : List Int) :
    parseNodeList (ids.map intChars) = some ids := by
  induction ids with
  | nil => rfl
  | cons i rest ih =>
    have hne : ¬((intChars i).isEmpty = true) := by
      intro e
      exact intChars_ne_nil i (List.isEmpty_iff.mp e)
    simp only [List.map_cons, parseNodeList, if_neg hne, stoiChars_intChars, ih]
    rfl

theorem stringMk_data (s : String) : String.mk s.data = s := by
  cases s
  rfl

theorem recordChars_ne_nil (p : String × List Int) : ¬((recordChars p).isEmpty = true) := by
  intro e
  have h : recordChars p = [] := List.isEmpty_iff.mp e
  have h2 : (':') ∈ recordChars p := by simp [recordChars]
  rw [h] at h2
  simp at h2

theorem loadMetadataLines_record (acc : List (String × List Int))
    (p : String × List Int) (rest : List (List Char))
    (hk : goodKey p.1) (hne : p.2 ≠ []) :
    loadMetadataLines acc (recordChars p :: rest) =
      loadMetadataLines (mapSet acc p.1 p.2) rest := by
  obtain ⟨k, ids⟩ := p
  have hids : ¬(ids.isEmpty = true) := by
    intro e
    exact hne (List.isEmpty_iff.mp e)
  simp only [loadMetadataLines, if_neg (recordChars_ne_nil (k, ids)),
    splitAtColon_record k ids hk, getlineSegments_idList, parseNodeList_map_intChars,
    if_neg hids, stringMk_data]

theorem loadMetadataLines_records (m : List (String × List Int)) :
    ∀ acc, (∀ p ∈ m, goodKey p.1 ∧ p.2 ≠ []) →
    loadMetadataLines acc (m.map recordChars) =
      m.foldl (fun a p => mapSet a p.1 p.2) acc := by
  induction m with
  | nil => intro acc _; rfl
  | cons p rest ih =>
    intro acc h
    have hp := h p (by simp)
    rw [List.map_cons, loadMetadataLines_record acc p _ hp.1 hp.2, List.foldl_cons]
    exact ih _ (fun q hq => h q (by simp [hq]))

theorem mapGet_foldl (m : List (String × List Int)) (hnd : (mapKeys m).Nodup) :
    ∀ acc k, mapGet (m.foldl (fun a p => mapSet a p.1 p.2) acc) k =
      if k ∈ mapKeys m then mapGet m k else mapGet acc k := by
  induction m with
  | nil =>
    intro acc k
    simp [mapKeys, mapGet]
  | cons p rest ih =>
    intro acc k
    rw [show mapKeys (p :: rest) = p.1 :: mapKeys rest from rfl] at hnd
    have hnc := List.nodup_cons.mp hnd
    rw [List.foldl_cons, ih hnc.2 (mapSet acc p.1 p.2) k,
      show mapKeys (p :: rest) = p.1 :: mapKeys rest from rfl]
    by_cases hk : p.1 = k
    · subst hk
      rw [if_neg hnc.1, mapGet_mapSet_self, if_pos (List.mem_cons_self _ _)]
      simp [mapGet]
    · by_cases hmem : k ∈ mapKeys rest
      · rw [if_pos hmem, if_pos (List.mem_cons_of_mem _ hmem)]
        simp [mapGet, hk]
      · have hnot : ¬(k ∈ p.1 :: mapKeys rest) := by
          intro hmm
          rcases List.mem_cons.mp hmm with e | e
          · exact hk e.symm
          · exact hmem e
        rw [if_neg hmem, mapGet_mapSet_ne _ _ hk, if_neg hnot]

theorem loadMetadata_serialize (m : List (String × List Int))
    (hgood : ∀ p ∈ m, goodKey p.1 ∧ p.2 ≠ []) (hnd : (mapKeys m).Nodup) :
    ∀ k, mapGet (loadMetadata (some (serializeMetadata m))) k = mapGet m k := by
  intro k
  rw [show loadMetadata (some (serializeMetadata m))
        = loadMetadataLines [] (getlineSegments '\n' (serializeMetadata m)) from rfl]
  rw [getlineSegments_of_split '\n' _ _ (splitOnChar_serialize m (fun p hp => (hgood p hp).1))]
  rw [loadMetadataLines_records m [] hgood, mapGet_foldl m hnd [] k]
  by_cases h : k ∈ mapKeys m
  · rw [if_pos h]
  · rw [if_neg h]
    exact ((mapGet_none_iff m k).mpr h).symm

theorem loadMetadataLines_blank (acc : List (String × List Int)) (rest : List (List Char)) :
    loadMetadataLines acc ([] :: rest) = loadMetadataLines acc rest := rfl

theorem loadMetadataLines_no_colon (acc : List (String × List Int)) (line : List Char)
    (rest : List (List Char)) (hline : ∀ c ∈ line, ¬(c = ':')) :
    loadMetadataLines acc (line :: rest) = loadMetadataLines acc rest := by
  by_cases he : line.isEmpty = true
  · simp only [loadMetadataLines, if_pos he]
  · have hsp : splitAtColon line = none := by
      unfold splitAtColon
      rw [if_neg ?hno]
      case hno =>
        simp only [List.any_eq_true, decide_eq_true_eq, not_exists]
        intro c
        rintro ⟨hc, he⟩
        exact hline c hc he
    simp only [loadMetadataLines, if_neg he, hsp]

theorem loadMetadataLines_empty_ids (acc : List (String × List Int)) (fname : List Char)
    (rest : List (List Char)) (hf : ∀ c ∈ fname, ¬(c = ':')) :
    loadMetadataLines acc ((fname ++ [':']) :: rest) = loadMetadataLines acc rest := by
  have he : ¬((fname ++ [':']).isEmpty = true) := by
    intro e
    have := List.isEmpty_iff.mp e
    simp at this
  have hany : (fname ++ [':']).any (fun c => c = ':') = true := by
    apply List.any_eq_true.mpr
    exact ⟨':', by simp, by decide⟩
  have ht : (fname ++ [':']).takeWhile (fun c => ¬(c = ':')) = fname := by
    have : fname ++ [':'] = fname ++ ':' :: [] := rfl
    rw [this]
    exact takeWhile_append_stop _ _ _ _ (fun c hc => by simp [hf c hc]) (by decide)
  have hd : (fname ++ [':']).dropWhile (fun c => ¬(c = ':')) = [':'] := by
    have : fname ++ [':'] = fname ++ ':' :: [] := rfl
    rw [this]
    exact dropWhile_append_stop _ _ _ _ (fun c hc => by simp [hf c hc]) (by decide)
  have hsp : splitAtColon (fname ++ [':']) = some (fname, []) := by
    unfold splitAtColon
    rw [if_pos hany, ht, hd]
    rfl
  simp only [loadMetadataLines, if_neg he, hsp]
  rfl

/-- A concrete state whose single metadata key contains a colon. -/
def mC5 : DistributedFS :=
  { nodes := [], metadata := [("a:1", [2])], disk := none }

/-- A concrete state with colon-free and newline-free keys. -/
def dC5w : DistributedFS :=
  { nodes := [], metadata := [("alpha", [1, 2, 3]), ("b", [10])], disk := none }

/-- Claim C5 (counterexample to the unamended claim): for the metadata map
`[("a:1", [2])]` — id lists non-empty as the claim requires — save followed
by load does NOT reproduce the mapping: the parser splits each line at its
FIRST colon, so the loaded map binds `"a"` to `[1]` and the original key
`"a:1"` is unbound. -/
theorem C5_roundtrip_counterexample :
    (∀ p ∈ mC5.metadata, p.2 ≠ []) ∧
    loadMetadata (saveMetadata mC5).disk = [("a", [1])] ∧
    mapGet (loadMetadata (saveMetadata mC5).disk) "a:1" = none ∧
    mapGet mC5.metadata "a:1" = some [2] := by decide

/-- Claim C5 (amended): for every metadata map whose filenames contain
neither a colon (the key/id separator) nor a newline (the record separator),
with duplicate-free keys and non-empty id lists, `saveMetadata` followed by
`loadMetadata` reproduces the same filename → node-id-sequence mapping, ids
in order; moreover `loadMetadata` returns the empty map for a missing
backing file, skips blank lines, skips lines without a colon, and drops
records with an empty id list. -/
theorem C5_persistence_roundtrip (d : DistributedFS)
    (hgood : ∀ p ∈ d.metadata, goodKey p.1 ∧ p.2 ≠ [])
    (hnd : (mapKeys d.metadata).Nodup) :
    (∀ k, mapGet (loadMetadata (saveMetadata d).disk) k = mapGet d.metadata k) ∧
    loadMetadata none = [] ∧
    (∀ acc rest, loadMetadataLines acc ([] :: rest) = loadMetadataLines acc rest) ∧
    (∀ acc line rest, (∀ c ∈ line, ¬(c = ':')) →
      loadMetadataLines acc (line :: rest) = loadMetadataLines acc rest) ∧
    (∀ acc fname rest, (∀ c ∈ fname, ¬(c = ':')) →
      loadMetadataLines acc ((fname ++ [':']) :: rest) = loadMetadataLines acc rest) := by
  refine ⟨?_, rfl, loadMetadataLines_blank, loadMetadataLines_no_colon,
    loadMetadataLines_empty_ids⟩
  intro k
  exact loadMetadata_serialize d.metadata hgood hnd k

/-- Witness for C5 at the concrete state `dC5w`. -/
theorem C5_persistence_roundtrip_witness :
    mapGet (loadMetadata (saveMetadata dC5w).disk) "alpha" = mapGet dC5w.metadata "alpha" :=
  (C5_persistence_roundtrip dC5w (by decide) (by decide)).1 "alpha"
